import Mathlib

/-!
Verification of the core text-processing and job-management routines of the
translate-pdfs repository, shallowly embedded from the Python source
(src/services/translation_service.py, src/services/job_recovery.py,
src/workers/translation_worker.py, src/services/document_processor.py,
src/models/job.py).

Strings are modelled as `List Char`.  The regex substitutions of the source
(`PLACEHOLDER_RE`, `INLINE_CODE_RE`, `LINK_OR_IMG_RE`, `FENCE_RE`, the
sentence and paragraph splitters) are modelled by explicit left-to-right
scanners mirroring Python `re.sub` / `re.split` semantics for those concrete
patterns.  The external tokenizer and translation model are opaque
parameters, as the spec treats them (`token_count`, `translate`).
-/

/-- Backtick character, written by code point. -/
def btk : Char := Char.ofNat 96

/-- Decimal digit character for a value below ten (prints placeholder indices). -/
def digitChar : Nat → Char
  | 0 => '0'
  | 1 => '1'
  | 2 => '2'
  | 3 => '3'
  | 4 => '4'
  | 5 => '5'
  | 6 => '6'
  | 7 => '7'
  | 8 => '8'
  | _ => '9'

/-- Numeric value of a digit character, as Python `int` reads one digit. -/
def digitVal (c : Char) : Nat := c.toNat - 48

/-- Value of a digit string, as Python `int(m.group(1))` in `_restore`. -/
def digitsVal (ds : List Char) : Nat := ds.foldl (fun a c => a * 10 + digitVal c) 0

/-- Decimal digit list of a natural number, as Python f-string formatting of
`len(stash)-1` inside `protect_tokens`. -/
def natDigits (n : Nat) : List Char :=
  if _h : n < 10 then [digitChar n]
  else natDigits (n / 10) ++ [digitChar (n % 10)]
decreasing_by exact Nat.div_lt_self (by omega) (by omega)

/-- Literal text of the placeholder `[[[TOKEN_<ds>]]]` around a digit string. -/
def shapeStr (ds : List Char) : List Char :=
  '[' :: '[' :: '[' :: 'T' :: 'O' :: 'K' :: 'E' :: 'N' :: '_' :: (ds ++ [']', ']', ']'])

/-- Placeholder text produced for stash index `n`, Python `f"[[[TOKEN_{n}]]]"`. -/
def placeholderOf (n : Nat) : List Char := shapeStr (natDigits n)

/-- Attempt to match `PLACEHOLDER_RE = \[\[\[TOKEN_(\d+)\]\]\]` at the head of
the input, returning the captured index value and the rest of the input. -/
def tryPlaceholder : List Char → Option (Nat × List Char)
  | '[' :: '[' :: '[' :: 'T' :: 'O' :: 'K' :: 'E' :: 'N' :: '_' :: rest =>
    if (rest.takeWhile Char.isDigit).isEmpty then none
    else
      match rest.dropWhile Char.isDigit with
      | ']' :: ']' :: ']' :: r3 => some (digitsVal (rest.takeWhile Char.isDigit), r3)
      | _ => none
  | _ => none

theorem takeWhile_append_cons {p : Char → Bool} {a : List Char} {x : Char} {xs : List Char}
    (ha : ∀ c ∈ a, p c = true) (hx : p x = false) :
    (a ++ x :: xs).takeWhile p = a := by
  induction a with
  | nil => simp [List.takeWhile, hx]
  | cons c cs ih =>
    have hc : p c = true := ha c (by simp)
    simp only [List.cons_append, List.takeWhile, hc]
    exact congrArg (c :: ·) (ih (fun d hd => ha d (by simp [hd])))

theorem dropWhile_append_cons {p : Char → Bool} {a : List Char} {x : Char} {xs : List Char}
    (ha : ∀ c ∈ a, p c = true) (hx : p x = false) :
    (a ++ x :: xs).dropWhile p = x :: xs := by
  induction a with
  | nil => simp [List.dropWhile, hx]
  | cons c cs ih =>
    have hc : p c = true := ha c (by simp)
    simp only [List.cons_append, List.dropWhile, hc]
    exact ih (fun d hd => ha d (by simp [hd]))

/-- Matching the placeholder pattern against a literal placeholder text
followed by anything recovers the digit string's value and the tail. -/
theorem tryPlaceholder_shape {ds : List Char} (r : List Char)
    (hne : ds ≠ []) (hd : ∀ c ∈ ds, c.isDigit = true) :
    tryPlaceholder (shapeStr ds ++ r) = some (digitsVal ds, r) := by
  have hrb : ']'.isDigit = false := by decide
  have heq : shapeStr ds ++ r =
      '[' :: '[' :: '[' :: 'T' :: 'O' :: 'K' :: 'E' :: 'N' :: '_' ::
        (ds ++ ']' :: ']' :: ']' :: r) := by
    simp [shapeStr]
  rw [heq]
  have htw : (ds ++ ']' :: ']' :: ']' :: r).takeWhile Char.isDigit = ds :=
    takeWhile_append_cons hd hrb
  have hdw : (ds ++ ']' :: ']' :: ']' :: r).dropWhile Char.isDigit = ']' :: ']' :: ']' :: r :=
    dropWhile_append_cons hd hrb
  simp only [tryPlaceholder, htw, hdw]
  rw [if_neg (by simp [List.isEmpty_iff, hne])]

/-- Characterization of a successful placeholder match: the input starts with a
literal placeholder over a non-empty digit string. -/
theorem tryPlaceholder_some {s : List Char} {n : Nat} {r : List Char}
    (h : tryPlaceholder s = some (n, r)) :
    ∃ ds, s = shapeStr ds ++ r ∧ ds ≠ [] ∧ (∀ c ∈ ds, c.isDigit = true) ∧ digitsVal ds = n := by
  rw [tryPlaceholder.eq_def] at h
  split at h
  case _ rest =>
    split at h
    case _ => exact absurd h (by simp)
    case _ hemp =>
      split at h
      case _ r3 hdw =>
        injection h with h1
        injection h1 with hn hr
        refine ⟨rest.takeWhile Char.isDigit, ?_, ?_, ?_, ?_⟩
        · subst hr
          simp only [shapeStr, List.cons_append, List.append_assoc]
          have hsplit : rest.takeWhile Char.isDigit ++ ']' :: ']' :: ']' :: r3 = rest := by
            conv_rhs => rw [← List.takeWhile_append_dropWhile (p := Char.isDigit) (l := rest)]
            rw [hdw]
          simp [hsplit]
        · simpa [List.isEmpty_iff] using hemp
        · intro c hc; exact List.mem_takeWhile_imp hc
        · exact hn
      case _ => exact absurd h (by simp)
  case _ => exact absurd h (by simp)

/-- A successful placeholder match consumes at least one character. -/
theorem tryPlaceholder_length {s : List Char} {n : Nat} {r : List Char}
    (h : tryPlaceholder s = some (n, r)) : r.length < s.length := by
  obtain ⟨ds, hs, -, -, -⟩ := tryPlaceholder_some h
  subst hs
  simp [shapeStr]
  omega

/-- Attempt to match `INLINE_CODE_RE` (a backtick, then characters other than a
backtick, then a backtick) at the head of the input. -/
def tryInline : List Char → Option (List Char × List Char)
  | c :: cs =>
    if c = btk then
      match cs.dropWhile (fun d => d != btk) with
      | d :: r => some (c :: (cs.takeWhile (fun d => d != btk) ++ [d]), r)
      | [] => none
    else none
  | [] => none

/-- Attempt to match the unprefixed part `\[[^\]]*\]\([^)]+\)` of
`LINK_OR_IMG_RE` at the head of the input. -/
def tryLinkCore : List Char → Option (List Char × List Char)
  | '[' :: cs =>
    match cs.dropWhile (fun d => d != ']') with
    | b1 :: '(' :: ds =>
      match ds.dropWhile (fun d => d != ')') with
      | b2 :: r =>
        if (ds.takeWhile (fun d => d != ')')).isEmpty then none
        else
          some ('[' :: (cs.takeWhile (fun d => d != ']') ++
            b1 :: '(' :: (ds.takeWhile (fun d => d != ')') ++ [b2])), r)
      | [] => none
    | _ => none
  | _ => none

/-- Attempt to match `LINK_OR_IMG_RE = (!?\[[^\]]*\]\([^)]+\))` at the head:
with a leading `!` the bracketed part must follow immediately, otherwise the
pattern is tried without the `!`. -/
def tryLink : List Char → Option (List Char × List Char)
  | '!' :: cs => (tryLinkCore cs).map (fun p => ('!' :: p.1, p.2))
  | s => tryLinkCore s

/-- A successful inline-code match splits the input and is non-empty. -/
theorem tryInline_split {s m r : List Char} (h : tryInline s = some (m, r)) :
    s = m ++ r ∧ m ≠ [] := by
  rw [tryInline.eq_def] at h
  split at h
  case _ c cs =>
    split at h
    case _ hc =>
      split at h
      case _ d r0 hdw =>
        injection h with h1
        injection h1 with hm hr
        subst hm; subst hr
        constructor
        · have hsp : cs.takeWhile (fun d => d != btk) ++ d :: r0 = cs := by
            conv_rhs => rw [← List.takeWhile_append_dropWhile (p := fun d => d != btk) (l := cs)]
            rw [hdw]
          simp only [List.cons_append, List.append_assoc, List.singleton_append,
            List.nil_append]
          rw [hsp]
        · simp
      case _ => exact absurd h (by simp)
    case _ => exact absurd h (by simp)
  case _ => exact absurd h (by simp)

/-- A successful core link match splits the input and is non-empty. -/
theorem tryLinkCore_split {s m r : List Char} (h : tryLinkCore s = some (m, r)) :
    s = m ++ r ∧ m ≠ [] := by
  rw [tryLinkCore.eq_def] at h
  split at h
  case _ cs =>
    split at h
    case _ b1 ds hdw1 =>
      split at h
      case _ b2 r0 hdw2 =>
        split at h
        case _ => exact absurd h (by simp)
        case _ =>
          injection h with h1
          injection h1 with hm hr
          subst hm; subst hr
          constructor
          · have h2 : ds.takeWhile (fun d => d != ')') ++ b2 :: r0 = ds := by
              conv_rhs => rw [← List.takeWhile_append_dropWhile (p := fun d => d != ')') (l := ds)]
              rw [hdw2]
            have h1 : cs.takeWhile (fun d => d != ']') ++ b1 :: '(' :: ds = cs := by
              conv_rhs => rw [← List.takeWhile_append_dropWhile (p := fun d => d != ']') (l := cs)]
              rw [hdw1]
            simp only [List.cons_append, List.append_assoc, List.singleton_append,
              List.nil_append]
            rw [h2, h1]
          · simp
      case _ => exact absurd h (by simp)
    case _ => exact absurd h (by simp)
  case _ => exact absurd h (by simp)

/-- A successful link match splits the input and is non-empty. -/
theorem tryLink_split {s m r : List Char} (h : tryLink s = some (m, r)) :
    s = m ++ r ∧ m ≠ [] := by
  rw [tryLink.eq_def] at h
  split at h
  case _ cs =>
    cases hc : tryLinkCore cs with
    | none => rw [hc] at h; exact absurd h (by simp)
    | some p =>
      rw [hc] at h
      obtain ⟨m0, r0⟩ := p
      injection h with h1
      injection h1 with hm hr
      obtain ⟨hsplit, hne⟩ := tryLinkCore_split hc
      subst hm; subst hr
      exact ⟨by rw [hsplit]; simp, by simp⟩
  case _ => exact tryLinkCore_split h

/-- A successful inline-code match consumes at least one character. -/
theorem tryInline_length (s m r : List Char) (h : tryInline s = some (m, r)) :
    r.length < s.length := by
  obtain ⟨hs, hne⟩ := tryInline_split h
  subst hs
  cases m with
  | nil => exact absurd rfl hne
  | cons a as => simp; omega

/-- A successful link match consumes at least one character. -/
theorem tryLink_length (s m r : List Char) (h : tryLink s = some (m, r)) :
    r.length < s.length := by
  obtain ⟨hs, hne⟩ := tryLink_split h
  subst hs
  cases m with
  | nil => exact absurd rfl hne
  | cons a as => simp; omega

/-- One pass of Python `re.sub` with the `_stash` replacement callback of
`MarkdownProcessor.protect_tokens`: scan left to right, at each position try
the matcher; on a match, append the matched text to the stash and emit the
placeholder for its index, then continue after the match; otherwise copy one
character. -/
def subStash (tm : List Char → Option (List Char × List Char))
    (htm : ∀ s m r, tm s = some (m, r) → r.length < s.length) :
    List Char → List (List Char) → List Char × List (List Char)
  | [], stash => ([], stash)
  | c :: cs, stash =>
    match h : tm (c :: cs) with
    | some (m, r) =>
      let rec2 := subStash tm htm r (stash ++ [m])
      (placeholderOf stash.length ++ rec2.1, rec2.2)
    | none =>
      let rec2 := subStash tm htm cs stash
      (c :: rec2.1, rec2.2)
termination_by s _ => s.length
decreasing_by
  · exact htm _ _ _ h
  · simp

/-- One pass of Python `re.sub` with the `_restore` callback of
`MarkdownProcessor.restore_tokens`: each placeholder is replaced by the stash
entry at its captured index; an out-of-range index is Python's `IndexError`,
modelled as `none`.  Replacement text is emitted verbatim, never rescanned. -/
def subRestore (stash : List (List Char)) : List Char → Option (List Char)
  | [] => some []
  | c :: cs =>
    match h : tryPlaceholder (c :: cs) with
    | some (n, r) =>
      match stash.get? n with
      | some v => (subRestore stash r).map (fun out => v ++ out)
      | none => none
    | none => (subRestore stash cs).map (fun out => c :: out)
termination_by s => s.length
decreasing_by
  · exact tryPlaceholder_length h
  · simp

/-- Embedding of `MarkdownProcessor.protect_tokens` (translation_service.py
lines 354-366): inline-code spans are stashed first, then link/image spans,
over the already-masked text, with one shared stash. -/
def protectTokensL (s : List Char) : List Char × List (List Char) :=
  let p1 := subStash tryInline tryInline_length s []
  subStash tryLink tryLink_length p1.1 p1.2

/-- Embedding of `MarkdownProcessor.restore_tokens` (translation_service.py
lines 368-375). -/
def restoreTokensL (t : List Char) (stash : List (List Char)) : Option (List Char) :=
  subRestore stash t

/-- String-level `protect_tokens`. -/
def protect_tokens (s : String) : String × List String :=
  let p := protectTokensL s.toList
  (String.mk p.1, p.2.map String.mk)

/-- String-level `restore_tokens`; `none` models `IndexError`. -/
def restore_tokens (t : String) (stash : List String) : Option String :=
  (restoreTokensL t.toList (stash.map String.toList)).map String.mk

/-- Python `\s` on the ASCII range, the whitespace class used by the
sentence splitter and by `str.split()`. -/
def isWsChar (c : Char) : Bool :=
  (c == ' ') || (c == '\t') || (c == '\n') || (c == '\r') || (c == '\x0b') || (c == '\x0c')

theorem dropWhile_length_le (p : Char → Bool) (l : List Char) :
    (l.dropWhile p).length ≤ l.length := by
  induction l with
  | nil => simp
  | cons c cs ih =>
    by_cases hc : p c
    · simp only [List.dropWhile, hc]
      exact Nat.le_succ_of_le ih
    · simp only [List.dropWhile, Bool.not_eq_true] at hc
      simp [List.dropWhile, hc]

/-- Python `" ".join`. -/
def joinSp : List (List Char) → List Char
  | [] => []
  | [x] => x
  | x :: xs => x ++ ' ' :: joinSp xs

/-- Scanner for `re.split(r"(?<=[\.\?!])\s+", text)`: a split point is a
maximal whitespace run whose preceding character is `.`, `?` or `!`; the
separators are discarded.  `acc` holds the current piece reversed. -/
def sentSplitGo (acc : List Char) : List Char → List (List Char)
  | [] => [acc.reverse]
  | c :: cs =>
    if isWsChar c ∧ (acc.head? = some '.' ∨ acc.head? = some '?' ∨ acc.head? = some '!') then
      acc.reverse :: sentSplitGo [] (cs.dropWhile isWsChar)
    else
      sentSplitGo (c :: acc) cs
termination_by s => s.length
decreasing_by
  · exact Nat.lt_succ_of_le (dropWhile_length_le isWsChar cs)
  · simp

/-- Embedding of the sentence split in `chunk_by_tokens`
(translation_service.py line 188). -/
def sentSplit (text : List Char) : List (List Char) := sentSplitGo [] text

/-- Python `str.split()`: split on whitespace runs, discarding empties. -/
def pySplitWs : List Char → List (List Char)
  | [] => []
  | c :: cs =>
    if isWsChar c then pySplitWs cs
    else (c :: cs.takeWhile (fun d => !isWsChar d)) :: pySplitWs (cs.dropWhile (fun d => !isWsChar d))
termination_by s => s.length
decreasing_by
  · simp
  · exact Nat.lt_succ_of_le (dropWhile_length_le _ cs)

/-- Word-level greedy fallback of `chunk_by_tokens` for a sentence whose
token count exceeds the ceiling (translation_service.py lines 194-207). -/
def hardSplitGo (count : List Char → Nat) (maxT : Nat) (cur : List (List Char)) :
    List (List Char) → List (List Char)
  | [] => if cur.isEmpty then [] else [joinSp cur]
  | w :: ws =>
    if count (joinSp (cur ++ [w])) > maxT ∧ ¬cur.isEmpty then
      joinSp cur :: hardSplitGo count maxT [w] ws
    else
      hardSplitGo count maxT (cur ++ [w]) ws

/-- Main loop of `chunk_by_tokens` (translation_service.py lines 189-218):
greedy sentence accumulation with the word-level fallback; chunks of an
over-long sentence are emitted immediately while the pending buffer is kept. -/
def chunkGo (count : List Char → Nat) (maxT : Nat) (buf : List (List Char)) (bufT : Nat) :
    List (List Char) → List (List Char)
  | [] => if buf.isEmpty then [] else [joinSp buf]
  | s :: rest =>
    let t := count s
    if t > maxT then
      hardSplitGo count maxT [] (pySplitWs s) ++ chunkGo count maxT buf bufT rest
    else if bufT + t ≤ maxT then
      chunkGo count maxT (buf ++ [s]) (bufT + t) rest
    else
      (if buf.isEmpty then [] else [joinSp buf]) ++ chunkGo count maxT [s] t rest

/-- Embedding of `TranslationService.chunk_by_tokens` (translation_service.py
lines 177-220), with the tokenizer's count as an opaque parameter. -/
def chunkByTokensL (count : List Char → Nat) (maxT : Nat) (text : List Char) :
    List (List Char) :=
  chunkGo count maxT [] 0 (sentSplit text)

/-- String-level `chunk_by_tokens`. -/
def chunk_by_tokens (count : String → Nat) (maxT : Nat) (text : String) : List String :=
  (chunkByTokensL (fun l => count (String.mk l)) maxT text.toList).map String.mk

/-- Main loop of `pack_by_token_budget` (translation_service.py lines
241-257), over pieces already sorted by descending token count. -/
def packGo (tok : α → Nat) (b : Nat) (cur : List α) (curT : Nat) : List α → List (List α)
  | [] => if cur.isEmpty then [] else [cur]
  | p :: ps =>
    let t := tok p
    if t > b then
      (if cur.isEmpty then [] else [cur]) ++ [p] :: packGo tok b [] 0 ps
    else if curT + t > b ∧ ¬cur.isEmpty then
      cur :: packGo tok b [p] t ps
    else
      packGo tok b (cur ++ [p]) (curT + t) ps

/-- Embedding of `TranslationService.pack_by_token_budget` (translation_service.py
lines 222-257): pieces are paired with their token counts, sorted by count
descending (Python's stable `list.sort` with `reverse=True`), then packed
greedily. -/
def pack_by_token_budget (tok : α → Nat) (pieces : List α) (b : Nat) : List (List α) :=
  let sorted := pieces.mergeSort (fun x y => tok y ≤ tok x)
  packGo tok b [] 0 sorted

/-- Job status enum of src/models/job.py. -/
inductive JobStatus
  | pending | processing | completed | failed | cancelled
  deriving DecidableEq, Repr

/-- Processing stage enum of src/models/job.py lines 71-78.  Its members are
exactly `uploaded`, `ocr_processing`, `docling_conversion`, `translation`,
`pdf_generation` and `completed`. -/
inductive ProcessingStage
  | uploaded | ocr_processing | docling_conversion | translation | pdf_generation | completed
  deriving DecidableEq, Repr

/-- Name table of the `ProcessingStage` enum members, for modelling Python
attribute lookup (`ProcessingStage.<name>`). -/
def processingStageMembers : List (String × ProcessingStage) :=
  [("UPLOADED", ProcessingStage.uploaded),
   ("OCR_PROCESSING", ProcessingStage.ocr_processing),
   ("DOCLING_CONVERSION", ProcessingStage.docling_conversion),
   ("TRANSLATION", ProcessingStage.translation),
   ("PDF_GENERATION", ProcessingStage.pdf_generation),
   ("COMPLETED", ProcessingStage.completed)]

/-- Python attribute access on the `ProcessingStage` enum class; `none`
models `AttributeError`. -/
def stageAttr (name : String) : Option ProcessingStage :=
  (processingStageMembers.find? (fun p => p.1 == name)).map Prod.snd

/-- Persisted job record (the columns of the `jobs` table that the recovery
and worker code reads and writes). -/
structure JobRec where
  id : String
  filename : String
  documentType : String
  status : JobStatus
  stage : ProcessingStage
  progress : String
  errorMessage : Option String
  outputFiles : Option String
  deriving DecidableEq, Repr

/-- A task placed on the work queue by `JobService.queue_job`. -/
structure QueuedTask where
  jobId : String
  filePath : String
  documentType : String
  deriving DecidableEq, Repr

/-- Status of a task as reported by the queue (`rq_job.get_status()`). -/
inductive RQStatus
  | queued | started | deferred | finished | failed
  deriving DecidableEq, Repr

/-- Embedding of `JobRecoveryService._requeue_job` (job_recovery.py lines
165-188).  The `try` body sets `status = PENDING`, then evaluates
`ProcessingStage.QUEUED`; if that attribute lookup fails the `except` branch
marks the job failed and nothing is enqueued; otherwise the job is reset and
re-enqueued with `uploads/{job.id}/{job.filename}`. -/
def requeueJob (job : JobRec) : JobRec × List QueuedTask :=
  let job1 := { job with status := JobStatus.pending }
  match stageAttr "QUEUED" with
  | none =>
    ({ job1 with
       status := JobStatus.failed,
       errorMessage := some "Failed to re-queue: type object ProcessingStage has no attribute QUEUED" },
     [])
  | some st =>
    ({ job1 with stage := st, progress := "0.0", errorMessage := none },
     [{ jobId := job.id,
        filePath := "uploads/" ++ job.id ++ "/" ++ job.filename,
        documentType := job.documentType }])

/-- One iteration of the loop in `JobRecoveryService.recover_orphaned_jobs`
(job_recovery.py lines 48-74) for a single pending/processing job, with the
queue's view of the job id as an oracle (`none` = no RQ job exists). -/
def recoverJobStep (queue : String → Option RQStatus) (job : JobRec) :
    JobRec × List QueuedTask :=
  match queue job.id with
  | none => requeueJob job
  | some RQStatus.failed =>
    ({ job with
       status := JobStatus.failed,
       errorMessage := some "Job failed during system restart" }, [])
  | some RQStatus.finished =>
    ({ job with
       status := JobStatus.completed,
       stage := ProcessingStage.completed,
       progress := "100.0" }, [])
  | some _ => (job, [])

/-- Embedding of `JobRecoveryService.recover_orphaned_jobs` (job_recovery.py
lines 30-80): every job whose status is pending or processing is reconciled
against the queue; other jobs are untouched.  Returns the updated job table
and the list of newly enqueued tasks. -/
def recover_orphaned_jobs (queue : String → Option RQStatus) (jobs : List JobRec) :
    List JobRec × List QueuedTask :=
  (jobs.map (fun j =>
      if j.status = JobStatus.pending ∨ j.status = JobStatus.processing then
        (recoverJobStep queue j).1
      else j),
   (jobs.map (fun j =>
      if j.status = JobStatus.pending ∨ j.status = JobStatus.processing then
        (recoverJobStep queue j).2
      else [])).flatten)

/-- Translation checkpoint record, `{key, done, parts}` as serialized by
`DocumentTranslator` (translation_service.py lines 521-541). -/
structure Checkpoint where
  key : String
  done : Nat
  parts : List String
  deriving DecidableEq, Repr

/-- Embedding of `DocumentTranslator._save_checkpoint` (translation_service.py
lines 534-541).  The outcome of the underlying file write is an oracle; the
source wraps the write in `try/except Exception` and only logs on failure,
so the function returns normally in every case. -/
def save_checkpoint (writeOutcome : Except String Unit) : Except String Unit :=
  match writeOutcome with
  | Except.ok _ => Except.ok ()
  | Except.error _ => Except.ok ()

/-- Embedding of `DocumentTranslator._load_checkpoint` (translation_service.py
lines 521-532).  The checkpoint file is an oracle: `none` = file absent,
`some (Except.error e)` = unreadable or unparsable (the `except` branch),
`some (Except.ok d)` = parsed content.  A missing, unreadable or
key-mismatched checkpoint yields the zero checkpoint; the function never
raises. -/
def load_checkpoint (file : Option (Except String Checkpoint)) (key : String) : Checkpoint :=
  match file with
  | some (Except.ok d) => if d.key = key then d else { key := key, done := 0, parts := [] }
  | _ => { key := key, done := 0, parts := [] }

/-- State touched by the worker while processing one job: the job record, the
temporary working directory, and the final output directory's files. -/
structure PipelineState where
  job : JobRec
  workDirExists : Bool
  outputDirFiles : List String
  deriving DecidableEq, Repr

/-- Embedding of `DocumentProcessor.cleanup_work_files` (document_processor.py
lines 262-271): removes the work directory and nothing else. -/
def cleanup_work_files (s : PipelineState) : PipelineState :=
  { s with workDirExists := false }

/-- Embedding of the effect skeleton of `process_translation_job`
(translation_worker.py lines 25-160).  The document-processing pipeline's
outcome is an oracle: `Except.ok outs` is a successful run producing output
files, `Except.error e` a `DocumentProcessingError` (or unexpected error).
On success the job is completed and `cleanup_work_files` runs; on failure the
job is marked failed and no cleanup runs. -/
def process_translation_job (procOutcome : Except String (List String))
    (s : PipelineState) : PipelineState :=
  let job1 := { s.job with
    status := JobStatus.processing,
    stage := ProcessingStage.uploaded,
    progress := "0.0" }
  let s1 := { s with job := job1, workDirExists := true }
  match procOutcome with
  | Except.ok outs =>
    let job2 := { s1.job with
      status := JobStatus.completed,
      stage := ProcessingStage.completed,
      progress := "100.0",
      errorMessage := none,
      outputFiles := some (String.intercalate "," outs) }
    let s2 := { s1 with job := job2, outputDirFiles := s1.outputDirFiles ++ outs }
    cleanup_work_files s2
  | Except.error e =>
    { s1 with job := { s1.job with status := JobStatus.failed, errorMessage := some e } }

/-- Python generator `TranslationService._batched` (translation_service.py
lines 338-348): buffer elements, yield when the buffer reaches `n`, yield the
final partial buffer. -/
def batchedGo (n : Nat) (buf : List α) : List α → List (List α)
  | [] => if buf.isEmpty then [] else [buf]
  | x :: xs =>
    if (buf ++ [x]).length = n then (buf ++ [x]) :: batchedGo n [] xs
    else batchedGo n (buf ++ [x]) xs

/-- Find the earliest closing triple of `d` in the input (`.*?` of
`FENCE_RE`), returning consumed content including the closer, and the rest. -/
def closeFence (d : Char) : List Char → Option (List Char × List Char)
  | c1 :: c2 :: c3 :: rest =>
    if c1 = d ∧ c2 = d ∧ c3 = d then some ([c1, c2, c3], rest)
    else (closeFence d (c2 :: c3 :: rest)).map (fun p => (c1 :: p.1, p.2))
  | _ => none

/-- Attempt to match one alternative of `FENCE_RE` at the head. -/
def tryFenceWith (d : Char) : List Char → Option (List Char × List Char)
  | c1 :: c2 :: c3 :: rest =>
    if c1 = d ∧ c2 = d ∧ c3 = d then
      (closeFence d rest).map (fun p => (c1 :: c2 :: c3 :: p.1, p.2))
    else none
  | _ => none

/-- Attempt to match `FENCE_RE` at the head: the backtick alternative is
tried first, then the tilde alternative. -/
def tryFence (s : List Char) : Option (List Char × List Char) :=
  (tryFenceWith btk s).orElse (fun _ => tryFenceWith '~' s)

theorem closeFence_split {d : Char} : ∀ {s m r : List Char},
    closeFence d s = some (m, r) → s = m ++ r := by
  intro s
  induction s with
  | nil => intro m r h; simp [closeFence] at h
  | cons c1 t ih =>
    intro m r h
    rcases t with _ | ⟨c2, t2⟩
    · simp [closeFence] at h
    · rcases t2 with _ | ⟨c3, rest⟩
      · simp [closeFence] at h
      · by_cases hd : c1 = d ∧ c2 = d ∧ c3 = d
        · simp only [closeFence, if_pos hd] at h
          injection h with h1
          injection h1 with hm hr
          subst hm; subst hr; rfl
        · simp only [closeFence, if_neg hd] at h
          cases hc : closeFence d (c2 :: c3 :: rest) with
          | none => rw [hc] at h; simp at h
          | some p =>
            obtain ⟨m0, r0⟩ := p
            rw [hc] at h
            simp only [Option.map] at h
            injection h with h1
            injection h1 with hm hr
            subst hm; subst hr
            simpa using congrArg (c1 :: ·) (ih hc)

theorem tryFenceWith_split {d : Char} {s m r : List Char}
    (h : tryFenceWith d s = some (m, r)) : s = m ++ r ∧ m ≠ [] := by
  rw [tryFenceWith.eq_def] at h
  split at h
  case _ c1 c2 c3 rest =>
    split at h
    case _ =>
      cases hc : closeFence d rest with
      | none => rw [hc] at h; exact absurd h (by simp)
      | some p =>
        rw [hc] at h
        obtain ⟨m0, r0⟩ := p
        injection h with h1
        injection h1 with hm hr
        subst hm; subst hr
        refine ⟨?_, by simp⟩
        have := closeFence_split hc
        simp [this]
    case _ => exact absurd h (by simp)
  case _ => exact absurd h (by simp)

theorem tryFence_split {s m r : List Char} (h : tryFence s = some (m, r)) :
    s = m ++ r ∧ m ≠ [] := by
  unfold tryFence at h
  cases hb : tryFenceWith btk s with
  | some p =>
    obtain ⟨m0, r0⟩ := p
    rw [hb] at h
    have h2 : m0 = m ∧ r0 = r := by simpa [Option.orElse, Prod.ext_iff] using h
    obtain ⟨rfl, rfl⟩ := h2
    exact tryFenceWith_split hb
  | none =>
    rw [hb] at h
    simp [Option.orElse] at h
    exact tryFenceWith_split h

theorem tryFence_length (s m r : List Char) (h : tryFence s = some (m, r)) :
    r.length < s.length := by
  obtain ⟨hs, hne⟩ := tryFence_split h
  subst hs
  cases m with
  | nil => exact absurd rfl hne
  | cons a as => simp; omega

/-- Split the whitespace run that follows the leading newline of a paragraph
separator at its last newline (the backtracking of greedy `\s*` before the
closing `\n` of `\n\s*\n`). -/
def splitAtLastNl (l : List Char) : Option (List Char × List Char) :=
  match l.reverse.dropWhile (fun c => c != '\n') with
  | [] => none
  | _ :: restRev =>
    some (restRev.reverse, (l.reverse.takeWhile (fun c => c != '\n')).reverse)

/-- Attempt to match the paragraph separator `\n\s*\n` at the head. -/
def tryParaSep : List Char → Option (List Char × List Char)
  | c :: cs =>
    if c = '\n' then
      match splitAtLastNl (cs.takeWhile isWsChar) with
      | some (w1, w2) => some (c :: (w1 ++ ['\n']), w2 ++ cs.dropWhile isWsChar)
      | none => none
    else none
  | [] => none

theorem splitAtLastNl_split {l w1 w2 : List Char}
    (h : splitAtLastNl l = some (w1, w2)) : l = w1 ++ '\n' :: w2 := by
  unfold splitAtLastNl at h
  split at h
  case _ => exact absurd h (by simp)
  case _ c restRev hdw =>
    injection h with h1
    injection h1 with h1 h2
    subst h1; subst h2
    have hc : c = '\n' := by
      have hhead := List.head?_dropWhile_not (fun c => c != '\n') l.reverse
      rw [hdw] at hhead
      simpa using hhead
    subst hc
    have hsplit : l.reverse.takeWhile (fun c => c != '\n') ++ '\n' :: restRev = l.reverse := by
      conv_rhs => rw [← List.takeWhile_append_dropWhile (p := fun c => c != '\n') (l := l.reverse)]
      rw [hdw]
    have := congrArg List.reverse hsplit
    simp at this
    exact this.symm

theorem tryParaSep_split {s m r : List Char} (h : tryParaSep s = some (m, r)) :
    s = m ++ r ∧ m ≠ [] := by
  rw [tryParaSep.eq_def] at h
  split at h
  case _ c cs =>
    split at h
    case _ hc =>
      subst hc
      split at h
      case _ w1 w2 hsp =>
        injection h with h1
        injection h1 with hm hr
        subst hm; subst hr
        refine ⟨?_, by simp⟩
        have hws := splitAtLastNl_split hsp
        have hcs : w1 ++ '\n' :: (w2 ++ cs.dropWhile isWsChar) = cs := by
          conv_rhs => rw [← List.takeWhile_append_dropWhile (p := isWsChar) (l := cs)]
          rw [hws]
          simp
        simp only [List.cons_append, List.append_assoc, List.singleton_append,
          List.nil_append]
        rw [hcs]
      case _ => exact absurd h (by simp)
    case _ => exact absurd h (by simp)
  case _ => exact absurd h (by simp)

theorem tryParaSep_length (s m r : List Char) (h : tryParaSep s = some (m, r)) :
    r.length < s.length := by
  obtain ⟨hs, hne⟩ := tryParaSep_split h
  subst hs
  cases m with
  | nil => exact absurd rfl hne
  | cons a as => simp; omega

/-- Python `re.split` with a pattern wrapped in one capturing group: pieces
and separators alternate in the result (even indices are pieces, odd indices
are the captured separators).  `acc` is the current piece reversed. -/
def splitKeepGo (tm : List Char → Option (List Char × List Char))
    (htm : ∀ s m r, tm s = some (m, r) → r.length < s.length)
    (acc : List Char) : List Char → List (List Char)
  | [] => [acc.reverse]
  | c :: cs =>
    match h : tm (c :: cs) with
    | some (m, r) => acc.reverse :: m :: splitKeepGo tm htm [] r
    | none => splitKeepGo tm htm (c :: acc) cs
termination_by s => s.length
decreasing_by
  · exact htm _ _ _ h
  · simp

/-- Embedding of `FENCE_RE.split(md_text)` (translation_service.py line 438):
even indices are text between fences, odd indices are fenced blocks. -/
def fenceSplit (s : List Char) : List (List Char) :=
  splitKeepGo tryFence tryFence_length [] s

/-- Embedding of `re.split(r"(\n\s*\n)", protected)` (translation_service.py
line 462): paragraphs interleaved with their blank-line separators. -/
def paraSplit (s : List Char) : List (List Char) :=
  splitKeepGo tryParaSep tryParaSep_length [] s

/-- Python `str.strip()`: remove leading and trailing whitespace. -/
def pyStrip (l : List Char) : List Char :=
  ((l.dropWhile isWsChar).reverse.dropWhile isWsChar).reverse

/-- The blank-paragraph test of `translate_markdown_document`
(translation_service.py line 467): `p.strip() == "" or p.strip() == "\n"`. -/
def isBlankPara (p : List Char) : Bool :=
  pyStrip p = ([] : List Char) ∨ pyStrip p = ['\n']

/-- The opaque collaborators and settings used by the translation service:
the tokenizer's token count, the translation engine on one batch, and the
relevant settings fields. -/
structure Engine where
  count : List Char → Nat
  translateBatch : List (List Char) → List (List Char)
  maxInputTokens : Nat
  maxTokensPerBatch : Nat
  batchSize : Nat

/-- Embedding of `TranslationService.translate_texts_token_safe`
(translation_service.py lines 307-336): each text is chunked, the chunks are
packed into batches (by budget, or by count when the budget setting is zero),
each batch is translated, and the translated chunks are rejoined with single
spaces; one output per input text. -/
def translate_texts_token_safe (E : Engine) (texts : List (List Char)) : List (List Char) :=
  texts.map (fun text =>
    let pieces := chunkByTokensL E.count E.maxInputTokens text
    let batches :=
      if E.maxTokensPerBatch > 0 then pack_by_token_budget E.count pieces E.maxTokensPerBatch
      else batchedGo E.batchSize [] pieces
    joinSp (batches.map E.translateBatch).flatten)

/-- Rebuild loop of `translate_markdown_document` (translation_service.py
lines 481-490): blank paragraphs are kept verbatim, each non-blank paragraph
slot consumes the next translated text and restores its protected tokens.
`none` models an exception (IndexError in restore, or iterator exhaustion). -/
def rebuildGo (stash : List (List Char)) :
    List (List Char) → List (List Char) → Option (List (List Char))
  | [], _ => some []
  | p :: ps, ts =>
    if isBlankPara p then (rebuildGo stash ps ts).map (fun rs => p :: rs)
    else
      match ts with
      | t :: ts' =>
        match restoreTokensL t stash with
        | some rt => (rebuildGo stash ps ts').map (fun rs => rt :: rs)
        | none => none
      | [] => none

/-- Per-prose-block processing of `translate_markdown_document`
(translation_service.py lines 460-490): protect tokens, split into
paragraphs, translate the non-blank paragraphs in batches of 8, rebuild in
original order, and concatenate. -/
def processPart (E : Engine) (part : List Char) : Option (List Char) :=
  let pr := protectTokensL part
  let paragraphs := paraSplit pr.1
  let buffer := paragraphs.filter (fun p => !(isBlankPara p))
  let translated := ((batchedGo 8 [] buffer).map (translate_texts_token_safe E)).flatten
  (rebuildGo pr.2 paragraphs translated).map List.flatten

/-- Result of one run of the block loop: the final output parts when the run
completes (`none` models an exception aborting the run), the checkpoints
saved along the way, and the indices of the blocks sent through prose
translation. -/
structure RunResult where
  result : Option (List (List Char))
  saved : List Checkpoint
  translated : List Nat
  deriving Repr

/-- The block loop of `translate_markdown_document` (translation_service.py
lines 452-509), from block `i` with accumulated output `outs`: odd-indexed
blocks (fenced code) pass through verbatim, even-indexed blocks are prose
translated; after each block a checkpoint is saved when `(i+1) % fe == 0`,
and after the loop a final checkpoint with `done = total` is saved. -/
def runTMDGo (E : Engine) (parts : List (List Char)) (key : String) (fe : Nat)
    (i : Nat) (outs : List (List Char)) : RunResult :=
  if h : i < parts.length then
    let blockRes := if i % 2 = 1 then some parts[i] else processPart E parts[i]
    let inv : List Nat := if i % 2 = 1 then [] else [i]
    match blockRes with
    | none => { result := none, saved := [], translated := inv }
    | some b =>
      let outs' := outs ++ [b]
      let savedHere : List Checkpoint :=
        if (i + 1) % fe = 0 then [⟨key, i + 1, outs'.map String.mk⟩] else []
      let rec2 := runTMDGo E parts key fe (i + 1) outs'
      { result := rec2.result, saved := savedHere ++ rec2.saved,
        translated := inv ++ rec2.translated }
  else
    { result := some outs, saved := [⟨key, parts.length, outs.map String.mk⟩],
      translated := [] }
termination_by parts.length - i

/-- Embedding of `DocumentTranslator.translate_markdown_document`
(translation_service.py lines 411-513) with checkpointing enabled (an output
directory and key are supplied): split on fences, load any checkpoint for
`key` from the file oracle, seed the output with the checkpointed prefix,
and run the block loop from `blocks_done`. -/
def translate_markdown_document (E : Engine) (md : String)
    (cpFile : Option (Except String Checkpoint)) (key : String) (fe : Nat) :
    Option String × List Checkpoint × List Nat :=
  let parts := fenceSplit md.toList
  let cp := load_checkpoint cpFile key
  let startI := cp.done
  let outs := (cp.parts.take startI).map String.toList
  let r := runTMDGo E parts key fe startI outs
  (r.result.map (fun l => String.mk l.flatten), r.saved, r.translated)

/-- Global progress value reported for translation-stage fraction `p` (in
percent): `55 + p * 0.35`, document_processor.py lines 88-92. -/
def translationProgressValue (p : ℚ) : ℚ := 55 + p * (35 / 100)

/-- The sequence of progress values `process_pdf` reports to its callback for
one document (document_processor.py lines 54-123): fixed milestones around
the OCR, conversion, image-copy and rendering stages, and the translation
window fed by the orchestrator's per-block fractions `ps` (in percent). -/
def processPdfProgress (ps : List ℚ) : List ℚ :=
  [10, 30, 35, 50, 55] ++ ps.map translationProgressValue ++ [90, 92, 95, 100]

/-- The full sequence of progress values persisted onto the job record across
one job (translation_worker.py lines 50-114): `0.0` at pickup, then every
callback value, then `100.0` at completion. -/
def workerProgressSeq (ps : List ℚ) : List ℚ :=
  0 :: processPdfProgress ps ++ [100]

/-- Job record used as the failing input for the recovery scenario: status
`processing`, and the queue reports no matching task. -/
def orphanedJob : JobRec :=
  { id := "job-1", filename := "doc.pdf", documentType := "scan",
    status := JobStatus.processing, stage := ProcessingStage.translation,
    progress := "42.0", errorMessage := none, outputFiles := none }

/-- C1 (code bug): evaluating `recover_orphaned_jobs` at the failing input — a
job in `processing` for which the queue reports no task — leaves the job
`failed` (not `pending`), leaves its stage unchanged (not reset), and
enqueues nothing, because `_requeue_job` evaluates `ProcessingStage.QUEUED`,
an attribute the enum does not define, and the resulting AttributeError is
caught by the handler that marks the job failed. -/
theorem recover_orphaned_job_attribute_error :
    (recover_orphaned_jobs (fun _ => none) [orphanedJob]).1.map JobRec.status
        = [JobStatus.failed] ∧
    (recover_orphaned_jobs (fun _ => none) [orphanedJob]).1.map JobRec.stage
        = [ProcessingStage.translation] ∧
    (recover_orphaned_jobs (fun _ => none) [orphanedJob]).2 = [] ∧
    stageAttr "QUEUED" = none :=
  ⟨rfl, rfl, rfl, rfl⟩

/-- C7 counterexample: a failing checkpoint write does not propagate —
`_save_checkpoint` catches the exception and returns normally. -/
theorem save_checkpoint_swallows_write_failure :
    save_checkpoint (Except.error "disk full") = Except.ok () := rfl

/-- C7 (amended): the checkpoint save catches and logs a failing write and
returns normally (write failure is not fatal and is not propagated); on read,
a missing, unreadable or key-mismatched checkpoint is treated as no
checkpoint, and load never raises. -/
theorem checkpoint_save_logs_load_total :
    (∀ w, save_checkpoint w = Except.ok ()) ∧
    (∀ k, load_checkpoint none k = { key := k, done := 0, parts := [] }) ∧
    (∀ e k, load_checkpoint (some (Except.error e)) k = { key := k, done := 0, parts := [] }) ∧
    (∀ d k, d.key ≠ k →
      load_checkpoint (some (Except.ok d)) k = { key := k, done := 0, parts := [] }) ∧
    (∀ d k, d.key = k → load_checkpoint (some (Except.ok d)) k = d) := by
  refine ⟨fun w => ?_, fun k => rfl, fun e k => rfl, fun d k h => ?_, fun d k h => ?_⟩
  · cases w <;> rfl
  · simp [load_checkpoint, h]
  · simp [load_checkpoint, h]

/-- Witness for C7's amended theorem at concrete inputs. -/
theorem checkpoint_save_logs_load_total_witness :
    (({ key := "a", done := 1, parts := ["x"] } : Checkpoint).key ≠ "b") ∧
    load_checkpoint (some (Except.ok { key := "a", done := 1, parts := ["x"] })) "b"
      = { key := "b", done := 0, parts := [] } :=
  ⟨by decide, checkpoint_save_logs_load_total.2.2.2.1
    { key := "a", done := 1, parts := ["x"] } "b" (by decide)⟩

/-- Job record and pipeline state used for the worker cleanup scenario. -/
def samplePipelineState : PipelineState :=
  { job := { id := "job-9", filename := "d.pdf", documentType := "text_pdf",
             status := JobStatus.pending, stage := ProcessingStage.uploaded,
             progress := "0.0", errorMessage := none, outputFiles := none },
    workDirExists := false, outputDirFiles := [] }

/-- C9 counterexample: when document processing fails, the worker marks the
job failed and returns without calling `cleanup_work_files`; the temporary
work directory survives, contradicting deletion "on the failure path". -/
theorem work_dir_survives_failure :
    (process_translation_job (Except.error "Processing failed: OCR failed")
      samplePipelineState).workDirExists = true := rfl

/-- C9 (amended): the temporary work directory is deleted once the final
artifact is produced on the success path only — on the failure path no
cleanup runs and the directory is left in place; `cleanup_work_files` removes
only the work directory, leaving the job record and the output directory's
files unchanged. -/
theorem work_dir_cleanup_success_only :
    (∀ s outs, (process_translation_job (Except.ok outs) s).workDirExists = false) ∧
    (∀ s e, (process_translation_job (Except.error e) s).workDirExists = true) ∧
    (∀ s, (cleanup_work_files s).job = s.job ∧
          (cleanup_work_files s).outputDirFiles = s.outputDirFiles) :=
  ⟨fun _ _ => rfl, fun _ _ => rfl, fun _ => ⟨rfl, rfl⟩⟩

unseal sentSplitGo in
/-- C6 counterexample: on the empty string, `chunk_by_tokens` returns a list
containing one empty string (the sentence splitter yields `[""]` and the
buffer is flushed), not the empty list; the tokenizer here reports 2 tokens
for the empty string (its special tokens) against the default ceiling 950. -/
theorem chunk_by_tokens_empty_not_nil :
    chunk_by_tokens (fun _ => 2) 950 "" = [""] ∧
    chunk_by_tokens (fun _ => 2) 950 "" ≠ ([] : List String) :=
  ⟨rfl, by decide⟩

/-- C6 (amended): on the empty string `chunk_by_tokens` returns `[""]`
whenever the tokenizer's count of the empty string is within the ceiling (the
re.split of an empty string yields one empty sentence, which is buffered and
flushed); the returned chunk list can therefore contain an empty string. -/
theorem chunk_by_tokens_empty (count : String → Nat) (maxT : Nat)
    (h : count "" ≤ maxT) :
    chunk_by_tokens count maxT "" = [""] := by
  have hle : count (String.mk []) ≤ maxT := h
  unfold chunk_by_tokens chunkByTokensL sentSplit
  show (chunkGo _ maxT [] 0 (sentSplitGo [] ([] : List Char))).map String.mk = [""]
  rw [show sentSplitGo ([] : List Char) ([] : List Char) = [[]] by simp [sentSplitGo]]
  simp only [chunkGo]
  rw [if_neg (by omega), if_pos (by omega)]
  simp [chunkGo, joinSp]

/-- Witness for C6's amended theorem at a concrete tokenizer and ceiling. -/
theorem chunk_by_tokens_empty_witness :
    ((fun _ => 2 : String → Nat) "" ≤ 950) ∧
    chunk_by_tokens (fun _ => 2) 950 "" = [""] :=
  ⟨by decide, chunk_by_tokens_empty (fun _ => 2) 950 (by decide)⟩

theorem flatten_flush (cur : List α) :
    (if cur.isEmpty then ([] : List (List α)) else [cur]).flatten = cur := by
  by_cases h : cur.isEmpty
  · simp_all [List.isEmpty_iff]
  · simp [h]

theorem packGo_spec (tok : α → Nat) (b : Nat) :
    ∀ (l cur : List α) (curT : Nat), curT = (cur.map tok).sum → curT ≤ b →
      (∀ batch ∈ packGo tok b cur curT l,
        (batch.map tok).sum ≤ b ∨ ∃ p, batch = [p] ∧ b < tok p) ∧
      (packGo tok b cur curT l).flatten.Perm (cur ++ l) := by
  intro l
  induction l with
  | nil =>
    intro cur curT hsum hle
    constructor
    · intro batch hb
      simp only [packGo] at hb
      split at hb
      · simp at hb
      · simp at hb
        subst hb
        left
        omega
    · simp only [packGo]
      split
      case _ h => simp_all [List.isEmpty_iff]
      case _ h => simp
  | cons p ps ih =>
    intro cur curT hsum hle
    by_cases h1 : tok p > b
    · have hrec := ih [] 0 (by simp) (Nat.zero_le b)
      constructor
      · intro batch hb
        simp only [packGo, if_pos h1] at hb
        rw [List.mem_append] at hb
        rcases hb with hb | hb
        · split at hb
          · simp at hb
          · simp at hb
            subst hb
            left
            omega
        · rcases List.mem_cons.1 hb with hb | hb
          · subst hb
            right
            exact ⟨p, rfl, h1⟩
          · exact hrec.1 batch hb
      · simp only [packGo, if_pos h1, List.flatten_append, List.flatten_cons]
        rw [flatten_flush]
        have hp : (packGo tok b [] 0 ps).flatten.Perm ps := by simpa using hrec.2
        simpa using (hp.cons p).append_left cur
    · by_cases h2 : curT + tok p > b ∧ ¬cur.isEmpty
      · have hrec := ih [p] (tok p) (by simp) (by omega)
        constructor
        · intro batch hb
          simp only [packGo, if_neg h1, if_pos h2] at hb
          rcases List.mem_cons.1 hb with hb | hb
          · subst hb
            left
            omega
          · exact hrec.1 batch hb
        · simp only [packGo, if_neg h1, if_pos h2, List.flatten_cons]
          have hp : (packGo tok b [p] (tok p) ps).flatten.Perm (p :: ps) := by
            simpa using hrec.2
          exact hp.append_left cur
      · have hle' : curT + tok p ≤ b := by
          rcases Decidable.not_and_iff_or_not.1 h2 with h | h
          · omega
          · have : cur = [] := by simpa [List.isEmpty_iff] using h
            subst this
            simp at hsum
            omega
        have hrec := ih (cur ++ [p]) (curT + tok p) (by simp [hsum]) hle'
        constructor
        · intro batch hb
          simp only [packGo, if_neg h1, if_neg h2] at hb
          exact hrec.1 batch hb
        · simp only [packGo, if_neg h1, if_neg h2]
          simpa using hrec.2

/-- C4 (confirmed): every batch produced by `pack_by_token_budget` either has
summed token count within the budget or is a singleton whose sole member
exceeds the budget, and the concatenation of all batches is a permutation of
the input pieces — every input piece appears in exactly one batch. -/
theorem pack_by_token_budget_spec (tok : α → Nat) (pieces : List α) (b : Nat)
    (hb : 0 < b) :
    (∀ batch ∈ pack_by_token_budget tok pieces b,
      (batch.map tok).sum ≤ b ∨ ∃ p, batch = [p] ∧ b < tok p) ∧
    (pack_by_token_budget tok pieces b).flatten.Perm pieces := by
  unfold pack_by_token_budget
  have h := packGo_spec tok b (pieces.mergeSort (fun x y => tok y ≤ tok x)) [] 0
    (by simp) (Nat.zero_le b)
  refine ⟨h.1, ?_⟩
  refine (h.2).trans ?_
  simpa using pieces.mergeSort_perm (fun x y => tok y ≤ tok x)

/-- Witness for C4 at a concrete token counter, piece list and budget. -/
theorem pack_by_token_budget_spec_witness :
    (0 < 4) ∧
    ((∀ batch ∈ pack_by_token_budget (fun s : String => s.length)
        ["aaa", "b", "cccccc", "dd"] 4,
      (batch.map (fun s : String => s.length)).sum ≤ 4 ∨
        ∃ p, batch = [p] ∧ 4 < p.length) ∧
    (pack_by_token_budget (fun s : String => s.length)
        ["aaa", "b", "cccccc", "dd"] 4).flatten.Perm ["aaa", "b", "cccccc", "dd"]) :=
  ⟨by decide,
   pack_by_token_budget_spec (fun s : String => s.length) ["aaa", "b", "cccccc", "dd"] 4
     (by decide)⟩

theorem translationProgressValue_mono {p q : ℚ} (h : p ≤ q) :
    translationProgressValue p ≤ translationProgressValue q := by
  unfold translationProgressValue
  nlinarith

theorem translationProgressValue_lb {p : ℚ} (h0 : 0 ≤ p) :
    55 ≤ translationProgressValue p := by
  unfold translationProgressValue
  nlinarith

theorem translationProgressValue_ub {p : ℚ} (h1 : p ≤ 100) :
    translationProgressValue p ≤ 90 := by
  unfold translationProgressValue
  nlinarith

theorem chain_progress_tail (ps : List ℚ) :
    ∀ prev : ℚ, List.Chain' (· ≤ ·) ps → (∀ p ∈ ps, 0 ≤ p ∧ p ≤ 100) →
    (ps = [] → prev ≤ 90) →
    (∀ p0, ps.head? = some p0 → prev ≤ translationProgressValue p0) →
    List.Chain' (· ≤ ·)
      (prev :: (ps.map translationProgressValue ++ [90, 92, 95, 100, 100])) := by
  induction ps with
  | nil =>
    intro prev _ _ hnil _
    simp only [List.map_nil, List.nil_append]
    refine List.chain'_cons.2 ⟨hnil rfl, ?_⟩
    refine List.chain'_cons.2 ⟨by norm_num, ?_⟩
    refine List.chain'_cons.2 ⟨by norm_num, ?_⟩
    refine List.chain'_cons.2 ⟨by norm_num, ?_⟩
    exact List.chain'_pair.2 (by norm_num)
  | cons p ps' ih =>
    intro prev hch hbd hnil hhead
    have hbp := hbd p (by simp)
    simp only [List.map_cons, List.cons_append]
    refine List.chain'_cons.2 ⟨hhead p rfl, ?_⟩
    refine ih (translationProgressValue p) (hch.tail)
      (fun q hq => hbd q (by simp [hq])) ?_ ?_
    · intro _
      exact translationProgressValue_ub hbp.2
    · intro p0 hp0
      cases ps' with
      | nil => simp at hp0
      | cons q qs =>
        simp at hp0
        subst hp0
        exact translationProgressValue_mono (List.chain'_cons.1 hch).1

/-- C8 (confirmed): across one job, the persisted global progress sequence —
`0.0` at pickup, the fixed stage milestones, the translation-window values,
and `100.0` at completion — is non-decreasing whenever the translation
stage's reported fractions are non-decreasing and lie in [0, 100]; every
translation-window value equals the window start 55 plus the fraction times
the window width 35 (so no clamping is ever needed: every persisted value
lies in [0, 100] and the translation values lie in the [55, 90] window). -/
theorem worker_progress_monotone (ps : List ℚ)
    (hch : List.Chain' (· ≤ ·) ps) (hbd : ∀ p ∈ ps, 0 ≤ p ∧ p ≤ 100) :
    List.Chain' (· ≤ ·) (workerProgressSeq ps) ∧
    (∀ q ∈ workerProgressSeq ps, 0 ≤ q ∧ q ≤ 100) ∧
    (∀ p ∈ ps, translationProgressValue p = 55 + (p / 100) * 35 ∧
      55 ≤ translationProgressValue p ∧ translationProgressValue p ≤ 90) := by
  refine ⟨?_, ?_, ?_⟩
  · have hseq : workerProgressSeq ps =
        0 :: 10 :: 30 :: 35 :: 50 ::
          (55 :: (ps.map translationProgressValue ++ [90, 92, 95, 100, 100])) := by
      simp [workerProgressSeq, processPdfProgress]
    rw [hseq]
    refine List.chain'_cons.2 ⟨by norm_num, ?_⟩
    refine List.chain'_cons.2 ⟨by norm_num, ?_⟩
    refine List.chain'_cons.2 ⟨by norm_num, ?_⟩
    refine List.chain'_cons.2 ⟨by norm_num, ?_⟩
    refine List.chain'_cons.2 ⟨by norm_num, ?_⟩
    refine chain_progress_tail ps 55 hch hbd (fun _ => by norm_num) ?_
    intro p0 hp0
    have : p0 ∈ ps := by
      cases ps with
      | nil => simp at hp0
      | cons a l => simp at hp0; simp [hp0]
    exact translationProgressValue_lb (hbd p0 this).1
  · intro q hq
    rcases List.mem_cons.1 hq with rfl | hq2
    · norm_num
    rcases List.mem_append.1 hq2 with hq3 | hq3
    · unfold processPdfProgress at hq3
      rcases List.mem_append.1 hq3 with hq4 | hq4
      · rcases List.mem_append.1 hq4 with hq5 | hq5
        · fin_cases hq5 <;> norm_num
        · obtain ⟨p, hp, rfl⟩ := List.mem_map.1 hq5
          have hbp := hbd p hp
          have h1 := translationProgressValue_lb hbp.1
          have h2 := translationProgressValue_ub hbp.2
          constructor <;> linarith
      · fin_cases hq4 <;> norm_num
    · fin_cases hq3
      norm_num
  · intro p hp
    have hbp := hbd p hp
    refine ⟨by unfold translationProgressValue; ring, translationProgressValue_lb hbp.1,
      translationProgressValue_ub hbp.2⟩

/-- Witness for C8 at a concrete non-decreasing fraction sequence. -/
theorem worker_progress_monotone_witness :
    List.Chain' (· ≤ ·) ([25, 50, 100] : List ℚ) ∧
    (List.Chain' (· ≤ ·) (workerProgressSeq [25, 50, 100]) ∧
    (∀ q ∈ workerProgressSeq [25, 50, 100], 0 ≤ q ∧ q ≤ 100) ∧
    (∀ p ∈ ([25, 50, 100] : List ℚ), translationProgressValue p = 55 + (p / 100) * 35 ∧
      55 ≤ translationProgressValue p ∧ translationProgressValue p ≤ 90)) :=
  ⟨by norm_num [List.chain'_cons],
   worker_progress_monotone [25, 50, 100] (by norm_num [List.chain'_cons])
     (by intro p hp; fin_cases hp <;> norm_num)⟩

/-- The text transformation the sentence splitter realizes on reassembly:
each whitespace run that follows `.`, `?` or `!` is replaced by a single
space; all other characters, including whitespace runs elsewhere, are kept.
`prev` is the previously consumed character. -/
def collapseSeps (prev : Option Char) : List Char → List Char
  | [] => []
  | c :: cs =>
    if isWsChar c ∧ (prev = some '.' ∨ prev = some '?' ∨ prev = some '!') then
      ' ' :: collapseSeps none (cs.dropWhile isWsChar)
    else
      c :: collapseSeps (some c) cs
termination_by s => s.length
decreasing_by
  · exact Nat.lt_succ_of_le (dropWhile_length_le isWsChar cs)
  · simp

theorem sentSplitGo_ne_nil : ∀ (acc rem : List Char), sentSplitGo acc rem ≠ [] := by
  intro acc rem
  induction acc, rem using sentSplitGo.induct with
  | case1 acc => simp [sentSplitGo]
  | case2 acc c cs hcond ih =>
    rw [sentSplitGo.eq_def]
    simp only [if_pos hcond]
    simp
  | case3 acc c cs hcond ih =>
    rw [sentSplitGo.eq_def]
    simp only [if_neg hcond]
    exact ih

theorem joinSp_cons_of_ne {x : List Char} {xs : List (List Char)} (h : xs ≠ []) :
    joinSp (x :: xs) = x ++ ' ' :: joinSp xs := by
  cases xs with
  | nil => exact absurd rfl h
  | cons y ys => rfl

theorem joinSp_append {A B : List (List Char)} (hA : A ≠ []) (hB : B ≠ []) :
    joinSp (A ++ B) = joinSp A ++ ' ' :: joinSp B := by
  induction A with
  | nil => exact absurd rfl hA
  | cons x xs ih =>
    cases xs with
    | nil =>
      rw [List.singleton_append, joinSp_cons_of_ne hB]
      rfl
    | cons y ys =>
      rw [List.cons_append, joinSp_cons_of_ne (by simp), joinSp_cons_of_ne (h := by simp),
        ih (by simp)]
      simp

theorem joinSp_sentSplitGo : ∀ (acc rem : List Char),
    joinSp (sentSplitGo acc rem) = acc.reverse ++ collapseSeps acc.head? rem := by
  intro acc rem
  induction acc, rem using sentSplitGo.induct with
  | case1 acc => simp [sentSplitGo, collapseSeps, joinSp]
  | case2 acc c cs hcond ih =>
    rw [sentSplitGo.eq_def]
    simp only [if_pos hcond]
    rw [joinSp_cons_of_ne (sentSplitGo_ne_nil [] (cs.dropWhile isWsChar))]
    rw [collapseSeps.eq_def]
    simp only [if_pos hcond]
    rw [ih]
    simp
  | case3 acc c cs hcond ih =>
    rw [sentSplitGo.eq_def]
    simp only [if_neg hcond]
    rw [collapseSeps.eq_def]
    simp only [if_neg hcond]
    rw [ih]
    simp

theorem chunkGo_ne_nil (count : List Char → Nat) (maxT : Nat) :
    ∀ (sents : List (List Char)) (buf : List (List Char)) (bufT : Nat),
      buf ≠ [] → (∀ s ∈ sents, count s ≤ maxT) →
      chunkGo count maxT buf bufT sents ≠ [] := by
  intro sents
  induction sents with
  | nil =>
    intro buf bufT hbuf _
    simp [chunkGo, List.isEmpty_iff, hbuf]
  | cons s rest ih =>
    intro buf bufT hbuf hc
    have hs : count s ≤ maxT := hc s (by simp)
    simp only [chunkGo]
    rw [if_neg (by omega)]
    split
    · exact ih (buf ++ [s]) _ (by simp) (fun q hq => hc q (by simp [hq]))
    · simp [List.isEmpty_iff, hbuf]

theorem chunkGo_join (count : List Char → Nat) (maxT : Nat) :
    ∀ (sents : List (List Char)) (buf : List (List Char)) (bufT : Nat),
      (∀ s ∈ sents, count s ≤ maxT) → (buf = [] → bufT = 0) →
      joinSp (chunkGo count maxT buf bufT sents) = joinSp (buf ++ sents) := by
  intro sents
  induction sents with
  | nil =>
    intro buf bufT _ _
    simp only [chunkGo, List.append_nil]
    split
    case _ h => simp_all [List.isEmpty_iff, joinSp]
    case _ h => rfl
  | cons s rest ih =>
    intro buf bufT hc hinv
    have hs : count s ≤ maxT := hc s (by simp)
    have hcr : ∀ q ∈ rest, count q ≤ maxT := fun q hq => hc q (by simp [hq])
    simp only [chunkGo]
    rw [if_neg (by omega)]
    by_cases h2 : bufT + count s ≤ maxT
    · rw [if_pos h2, ih (buf ++ [s]) (bufT + count s) hcr (by simp)]
      simp
    · rw [if_neg h2]
      have hbuf : buf ≠ [] := by
        intro hb
        have := hinv hb
        omega
      rw [if_neg (by simp [List.isEmpty_iff, hbuf])]
      rw [List.singleton_append, joinSp_cons_of_ne
        (chunkGo_ne_nil count maxT rest [s] (count s) (by simp) hcr)]
      rw [ih [s] (count s) hcr (by simp)]
      rw [joinSp_append hbuf (by simp)]
      simp

/-- C5 (amended): when no sentence of the text exceeds the token ceiling (so
the word-level fallback is never taken), joining the chunks with single
spaces yields the text with each whitespace run following `.`, `?` or `!`
collapsed to a single space, with the chunks in original sentence order.  (In
general the claim fails: the fallback chunks of an over-long sentence are
emitted before the pending buffer, and whitespace inside sentences is kept.) -/
theorem chunk_by_tokens_join (count : List Char → Nat) (maxT : Nat) (text : List Char)
    (h : ∀ s ∈ sentSplit text, count s ≤ maxT) :
    joinSp (chunkByTokensL count maxT text) = collapseSeps none text := by
  unfold chunkByTokensL
  rw [chunkGo_join count maxT (sentSplit text) [] 0 h (fun _ => rfl)]
  rw [List.nil_append]
  have := joinSp_sentSplitGo [] text
  simpa [sentSplit] using this

/-- Modelled from the spec: the "whitespace-normalized" text — every maximal
whitespace run replaced by a single space (used only to state what the claim
asserts chunk reassembly reproduces). -/
def normalizeWsGo (prevWs : Bool) : List Char → List Char
  | [] => []
  | c :: cs =>
    if isWsChar c then
      if prevWs then normalizeWsGo true cs else ' ' :: normalizeWsGo true cs
    else c :: normalizeWsGo false cs

unseal sentSplitGo pySplitWs in
/-- C5 counterexample: with the tokenizer counting characters and ceiling 5,
the text `"aa. bbbbbbbb. cc"` (already whitespace-normal) chunks to
`["bbbbbbbb.", "aa. cc"]`: the over-long sentence's fallback chunk is emitted
before the pending buffer, so the chunks are out of original order and the
single-space join does not reproduce the whitespace-normalized original. -/
theorem chunk_join_not_normalized :
    chunk_by_tokens (fun s => s.length) 5 "aa. bbbbbbbb. cc" = ["bbbbbbbb.", "aa. cc"] ∧
    normalizeWsGo false "aa. bbbbbbbb. cc".toList = "aa. bbbbbbbb. cc".toList ∧
    String.intercalate " " (chunk_by_tokens (fun s => s.length) 5 "aa. bbbbbbbb. cc")
      ≠ String.mk (normalizeWsGo false "aa. bbbbbbbb. cc".toList) :=
  ⟨rfl, rfl, by decide⟩

unseal sentSplitGo collapseSeps in
/-- Witness for C5's amended theorem at a concrete tokenizer, ceiling and
text whose sentences are all within the ceiling. -/
theorem chunk_by_tokens_join_witness :
    (∀ s ∈ sentSplit "ab. c  d?\n e".toList, (fun l : List Char => l.length) s ≤ 50) ∧
    joinSp (chunkByTokensL (fun l : List Char => l.length) 50 "ab. c  d?\n e".toList)
      = collapseSeps none "ab. c  d?\n e".toList :=
  ⟨by decide, chunk_by_tokens_join (fun l => l.length) 50 "ab. c  d?\n e".toList (by decide)⟩

theorem runTMDGo_translated_ge (E : Engine) (parts : List (List Char)) (key : String)
    (fe : Nat) : ∀ (i : Nat) (outs : List (List Char)),
    ∀ j ∈ (runTMDGo E parts key fe i outs).translated, i ≤ j := by
  suffices H : ∀ (n i : Nat) (outs : List (List Char)), parts.length - i ≤ n →
      ∀ j ∈ (runTMDGo E parts key fe i outs).translated, i ≤ j by
    intro i outs
    exact H (parts.length - i) i outs le_rfl
  intro n
  induction n with
  | zero =>
    intro i outs hn j hj
    rw [runTMDGo.eq_def, dif_neg (by omega)] at hj
    simp at hj
  | succ n ih =>
    intro i outs hn j hj
    rw [runTMDGo.eq_def] at hj
    by_cases h : i < parts.length
    · rw [dif_pos h] at hj
      simp only at hj
      rcases hbr : (if i % 2 = 1 then some parts[i] else processPart E parts[i]) with _ | b
      · rw [hbr] at hj
        simp only at hj
        split at hj
        · simp at hj
        · simp at hj
          omega
      · rw [hbr] at hj
        simp only [List.mem_append] at hj
        rcases hj with hj | hj
        · split at hj
          · simp at hj
          · simp at hj
            omega
        · have := ih (i + 1) (outs ++ [b]) (by omega) j hj
          omega
    · rw [dif_neg h] at hj
      simp at hj

theorem toList_mk (l : List Char) : (String.mk l).toList = l := rfl

theorem map_toList_map_mk (outs : List (List Char)) :
    (outs.map String.mk).map String.toList = outs := by
  rw [List.map_map]
  simp [Function.comp_def, toList_mk]

theorem runTMDGo_saved_resume (E : Engine) (parts : List (List Char)) (key : String)
    (fe : Nat) : ∀ (i : Nat) (outs : List (List Char)),
    outs.length = i → i ≤ parts.length →
    ∀ cp ∈ (runTMDGo E parts key fe i outs).saved,
      cp.key = key ∧ cp.parts.length = cp.done ∧ cp.done ≤ parts.length ∧
      (runTMDGo E parts key fe cp.done (cp.parts.map String.toList)).result
        = (runTMDGo E parts key fe i outs).result := by
  suffices H : ∀ (n i : Nat) (outs : List (List Char)), parts.length - i ≤ n →
      outs.length = i → i ≤ parts.length →
      ∀ cp ∈ (runTMDGo E parts key fe i outs).saved,
        cp.key = key ∧ cp.parts.length = cp.done ∧ cp.done ≤ parts.length ∧
        (runTMDGo E parts key fe cp.done (cp.parts.map String.toList)).result
          = (runTMDGo E parts key fe i outs).result by
    intro i outs hlen hile
    exact H (parts.length - i) i outs le_rfl hlen hile
  intro n
  induction n with
  | zero =>
    intro i outs hn hlen hile cp hcp
    have hieq : i = parts.length := by omega
    subst hieq
    rw [runTMDGo.eq_def, dif_neg (by omega)] at hcp
    simp only [List.mem_singleton] at hcp
    subst hcp
    refine ⟨rfl, by simp [hlen], by simp, ?_⟩
    rw [map_toList_map_mk]
  | succ n ih =>
    intro i outs hn hlen hile cp hcp
    by_cases h : i < parts.length
    · rw [runTMDGo.eq_def, dif_pos h] at hcp
      simp only at hcp
      rcases hbr : (if i % 2 = 1 then some parts[i] else processPart E parts[i]) with _ | b
      · rw [hbr] at hcp
        simp at hcp
      · rw [hbr] at hcp
        simp only [List.mem_append] at hcp
        have hres : (runTMDGo E parts key fe i outs).result
            = (runTMDGo E parts key fe (i + 1) (outs ++ [b])).result := by
          rw [runTMDGo.eq_def, dif_pos h]
          simp only
          rw [hbr]
        rcases hcp with hcp | hcp
        · split at hcp
          case _ hfe =>
            simp only [List.mem_singleton] at hcp
            subst hcp
            refine ⟨rfl, by simp [hlen], by simp; omega, ?_⟩
            rw [map_toList_map_mk]
            rw [hres]
          case _ => simp at hcp
        · have hrec := ih (i + 1) (outs ++ [b]) (by omega) (by simp [hlen]) (by omega) cp hcp
          exact ⟨hrec.1, hrec.2.1, hrec.2.2.1, by rw [hres]; exact hrec.2.2.2⟩
    · have hieq : i = parts.length := by omega
      subst hieq
      rw [runTMDGo.eq_def, dif_neg h] at hcp
      simp only [List.mem_singleton] at hcp
      subst hcp
      refine ⟨rfl, by simp [hlen], by simp, ?_⟩
      rw [map_toList_map_mk]

/-- C2 (confirmed): for every engine, markdown document, content key and
positive flush interval, if a single-pass run (no prior checkpoint) of
`translate_markdown_document` saved a checkpoint with `done = k` for
`0 < k < total_blocks` and completed with result `res`, then translating
again after that checkpoint resumes at block `k` — every block index sent
through prose translation is ≥ `k`, so blocks `[0, k)` are never re-sent to
the engine — and produces exactly the same final document `res`. -/
theorem translate_markdown_document_resume (E : Engine) (md : String) (key : String)
    (fe : Nat) (cp : Checkpoint) (k : Nat) (res : String)
    (hcp : cp ∈ (translate_markdown_document E md none key fe).2.1)
    (hk : cp.done = k) (hk0 : 0 < k) (hkN : k < (fenceSplit md.toList).length)
    (hres : (translate_markdown_document E md none key fe).1 = some res) :
    (translate_markdown_document E md (some (Except.ok cp)) key fe).1 = some res ∧
    ∀ j ∈ (translate_markdown_document E md (some (Except.ok cp)) key fe).2.2, k ≤ j := by
  simp only [translate_markdown_document] at hcp hres ⊢
  have hcp2 : cp ∈ (runTMDGo E (fenceSplit md.toList) key fe 0 []).saved := hcp
  have hres2 : (runTMDGo E (fenceSplit md.toList) key fe 0 []).result.map
      (fun l => String.mk l.flatten) = some res := hres
  have hsr := runTMDGo_saved_resume E (fenceSplit md.toList) key fe 0 [] rfl
    (Nat.zero_le _) cp hcp2
  have hkey : cp.key = key := hsr.1
  have hplen : cp.parts.length = cp.done := hsr.2.1
  have hload1 : load_checkpoint (some (Except.ok cp)) key = cp := by
    simp [load_checkpoint, hkey]
  simp only [hload1]
  have htake : cp.parts.take cp.done = cp.parts := by
    rw [← hplen]
    exact List.take_length cp.parts
  rw [htake]
  constructor
  · rw [hsr.2.2.2]
    exact hres2
  · intro j hj
    have := runTMDGo_translated_ge E (fenceSplit md.toList) key fe cp.done
      (cp.parts.map String.toList) j hj
    omega

/-- Engine instance used for the checkpoint-resume witness: the identity
translator with a character-counting tokenizer and count-based batching. -/
def idEngine : Engine :=
  { count := fun l => l.length, translateBatch := id,
    maxInputTokens := 950, maxTokensPerBatch := 0, batchSize := 48 }

/-- Checkpoint saved by the one-pass witness run after two blocks. -/
def resumeWitnessCp : Checkpoint :=
  { key := "k", done := 2, parts := ["a. b\n\nc", "```x```"] }

unseal natDigits subStash subRestore sentSplitGo pySplitWs splitKeepGo runTMDGo in
/-- Witness for C2 at a concrete engine, document, flush interval and saved
checkpoint with `done = 2` of a 3-block document. -/
theorem translate_markdown_document_resume_witness :
    (resumeWitnessCp ∈ (translate_markdown_document idEngine "a. b\n\nc```x```d" none "k" 1).2.1) ∧
    (0 < 2) ∧ (2 < (fenceSplit "a. b\n\nc```x```d".toList).length) ∧
    ((translate_markdown_document idEngine "a. b\n\nc```x```d" none "k" 1).1
      = some "a. b\n\nc```x```d") ∧
    ((translate_markdown_document idEngine "a. b\n\nc```x```d"
        (some (Except.ok resumeWitnessCp)) "k" 1).1 = some "a. b\n\nc```x```d" ∧
     ∀ j ∈ (translate_markdown_document idEngine "a. b\n\nc```x```d"
        (some (Except.ok resumeWitnessCp)) "k" 1).2.2, 2 ≤ j) :=
  ⟨by decide, by decide, by decide, by decide,
   translate_markdown_document_resume idEngine "a. b\n\nc```x```d" "k" 1
     resumeWitnessCp 2 "a. b\n\nc```x```d" (by decide) (by decide) (by decide)
     (by decide) (by decide)⟩

/-- The input contains a placeholder-shaped substring `[[[TOKEN_<digits>]]]`. -/
def HasShape (l : List Char) : Prop :=
  ∃ pre ds suf, l = pre ++ shapeStr ds ++ suf ∧ ds ≠ [] ∧ ∀ c ∈ ds, c.isDigit = true

/-- The input starts with a placeholder-shaped prefix. -/
def StartsShape (l : List Char) : Prop :=
  ∃ ds suf, l = shapeStr ds ++ suf ∧ ds ≠ [] ∧ ∀ c ∈ ds, c.isDigit = true

/-- Executable test for `HasShape`: some suffix has a placeholder match at its
head. -/
def hasShapeB : List Char → Bool
  | [] => false
  | c :: cs => (tryPlaceholder (c :: cs)).isSome || hasShapeB cs

theorem startsShape_iff (l : List Char) :
    StartsShape l ↔ (tryPlaceholder l).isSome := by
  constructor
  · rintro ⟨ds, suf, rfl, hne, hd⟩
    rw [tryPlaceholder_shape suf hne hd]
    rfl
  · intro h
    cases htp : tryPlaceholder l with
    | none => rw [htp] at h; exact absurd h (by simp)
    | some p =>
      obtain ⟨n, r⟩ := p
      obtain ⟨ds, hl, hne, hd, -⟩ := tryPlaceholder_some htp
      exact ⟨ds, r, hl, hne, hd⟩

theorem hasShapeB_iff (l : List Char) : hasShapeB l = true ↔ HasShape l := by
  induction l with
  | nil =>
    simp only [hasShapeB]
    constructor
    · intro h; exact absurd h (by simp)
    · rintro ⟨pre, ds, suf, hl, hne, hd⟩
      have := congrArg List.length hl
      simp [shapeStr] at this
      omega
  | cons c cs ih =>
    simp only [hasShapeB, Bool.or_eq_true]
    constructor
    · rintro (h | h)
      · have hss : StartsShape (c :: cs) := (startsShape_iff (c :: cs)).2 h
        obtain ⟨ds, suf, hl, hne, hd⟩ := hss
        exact ⟨[], ds, suf, by simpa using hl, hne, hd⟩
      · obtain ⟨pre, ds, suf, hl, hne, hd⟩ := ih.1 h
        exact ⟨c :: pre, ds, suf, by simp [hl], hne, hd⟩
    · rintro ⟨pre, ds, suf, hl, hne, hd⟩
      cases pre with
      | nil =>
        left
        rw [← startsShape_iff]
        exact ⟨ds, suf, by simpa using hl, hne, hd⟩
      | cons p ps =>
        right
        refine ih.2 ⟨ps, ds, suf, ?_, hne, hd⟩
        have h0 := hl
        simp only [List.cons_append] at h0
        injection h0 with h1 h2

theorem digitChar_isDigit (k : Nat) : (digitChar k).isDigit = true := by
  unfold digitChar
  split <;> decide

theorem natDigits_ne_nil (n : Nat) : natDigits n ≠ [] := by
  unfold natDigits
  split <;> simp

theorem natDigits_digits (n : Nat) : ∀ c ∈ natDigits n, c.isDigit = true := by
  induction n using Nat.strong_induction_on with
  | _ n ih =>
    unfold natDigits
    split
    · intro c hc
      simp at hc
      subst hc
      exact digitChar_isDigit n
    case _ h =>
      intro c hc
      rw [List.mem_append] at hc
      rcases hc with hc | hc
      · exact ih (n / 10) (Nat.div_lt_self (by omega) (by omega)) c hc
      · simp at hc
        subst hc
        exact digitChar_isDigit (n % 10)

theorem digitVal_digitChar {k : Nat} (h : k < 10) : digitVal (digitChar k) = k := by
  interval_cases k <;> decide

theorem digitsVal_append_singleton (a : List Char) (c : Char) :
    digitsVal (a ++ [c]) = digitsVal a * 10 + digitVal c := by
  unfold digitsVal
  rw [List.foldl_append]
  rfl

theorem digitsVal_natDigits (n : Nat) : digitsVal (natDigits n) = n := by
  induction n using Nat.strong_induction_on with
  | _ n ih =>
    unfold natDigits
    split
    case _ h =>
      show digitsVal [digitChar n] = n
      unfold digitsVal
      simp [digitVal_digitChar h]
    case _ h =>
      rw [digitsVal_append_singleton, ih (n / 10) (Nat.div_lt_self (by omega) (by omega)),
        digitVal_digitChar (Nat.mod_lt n (by omega))]
      omega

theorem isDigit_ne {c x : Char} (hd : c.isDigit = true) (hx : x.isDigit = false) :
    c ≠ x := by
  intro h
  subst h
  rw [hd] at hx
  exact absurd hx (by simp)

theorem shapeStr_length (ds : List Char) : (shapeStr ds).length = ds.length + 12 := by
  simp [shapeStr]

theorem shapeStr_mem {ds : List Char} (hd : ∀ c ∈ ds, c.isDigit = true) :
    ∀ c ∈ shapeStr ds,
      c = '[' ∨ c = ']' ∨ c.isDigit = true ∨ c ∈ ['T', 'O', 'K', 'E', 'N', '_'] := by
  intro c hc
  simp only [shapeStr, List.mem_cons, List.mem_append] at hc
  rcases hc with rfl | rfl | rfl | rfl | rfl | rfl | rfl | rfl | rfl | hc
  · exact Or.inl rfl
  · exact Or.inl rfl
  · exact Or.inl rfl
  · simp
  · simp
  · simp
  · simp
  · simp
  · simp
  · rcases hc with hc | hc
    · exact Or.inr (Or.inr (Or.inl (hd c hc)))
    · rcases hc with rfl | rfl | rfl | h0
      · exact Or.inr (Or.inl rfl)
      · exact Or.inr (Or.inl rfl)
      · exact Or.inr (Or.inl rfl)
      · simp at h0

theorem shapeStr_no_rparen {ds : List Char} (hd : ∀ c ∈ ds, c.isDigit = true) :
    ∀ c ∈ shapeStr ds, c ≠ ')' := by
  intro c hc
  rcases shapeStr_mem hd c hc with rfl | rfl | h | h
  · decide
  · decide
  · exact isDigit_ne h (by decide)
  · fin_cases h <;> decide

theorem startsShape_heads {l : List Char} (h : StartsShape l) :
    ∃ t, l = '[' :: '[' :: '[' :: 'T' :: t := by
  obtain ⟨ds, suf, rfl, -, -⟩ := h
  exact ⟨'O' :: 'K' :: 'E' :: 'N' :: '_' :: ((ds ++ [']', ']', ']']) ++ suf), rfl⟩

theorem mem_of_drop_cons {l t : List Char} {c : Char} {q : Nat}
    (h : l.drop q = c :: t) : c ∈ l := by
  have hsub := List.drop_sublist q l
  rw [h] at hsub
  exact hsub.subset (by simp)

/-- A placeholder shape never starts strictly inside another placeholder
shape: the only run of three `[` begins at its start. -/
theorem no_shape_inside_shape {ds' : List Char}
    (hd' : ∀ c ∈ ds', c.isDigit = true) {p : Nat} (hp1 : 1 ≤ p)
    (hp2 : p < (shapeStr ds').length) (w : List Char) :
    ¬ StartsShape ((shapeStr ds').drop p ++ w) := by
  intro hss
  obtain ⟨t, ht⟩ := startsShape_heads hss
  rcases p with _ | _ | _ | q
  · omega
  · rw [show (shapeStr ds').drop 1 =
      '[' :: '[' :: 'T' :: 'O' :: 'K' :: 'E' :: 'N' :: '_' :: (ds' ++ [']', ']', ']'])
      from rfl] at ht
    simp only [List.cons_append] at ht
    injection ht with e1 ht; injection ht with e2 ht; injection ht with e3 ht
    exact absurd e3 (by decide)
  · rw [show (shapeStr ds').drop 2 =
      '[' :: 'T' :: 'O' :: 'K' :: 'E' :: 'N' :: '_' :: (ds' ++ [']', ']', ']'])
      from rfl] at ht
    simp only [List.cons_append] at ht
    injection ht with e1 ht; injection ht with e2 ht
    exact absurd e2 (by decide)
  · have hdrop : (shapeStr ds').drop (q + 3) =
        ('T' :: 'O' :: 'K' :: 'E' :: 'N' :: '_' :: (ds' ++ [']', ']', ']'])).drop q := by
      simp [shapeStr]
    rw [shapeStr_length] at hp2
    cases hdq : ('T' :: 'O' :: 'K' :: 'E' :: 'N' :: '_' :: (ds' ++ [']', ']', ']'])).drop q with
    | nil =>
      have := congrArg List.length hdq
      simp at this
      omega
    | cons c t' =>
      rw [hdrop, hdq] at ht
      simp only [List.cons_append] at ht
      injection ht with e1 ht
      subst e1
      have hcm := mem_of_drop_cons hdq
      simp only [List.mem_cons, List.mem_append] at hcm
      rcases hcm with h | h | h | h | h | h | h | h
      · exact absurd h (by decide)
      · exact absurd h (by decide)
      · exact absurd h (by decide)
      · exact absurd h (by decide)
      · exact absurd h (by decide)
      · exact absurd h (by decide)
      · exact absurd rfl (isDigit_ne (hd' _ h) (by decide))
      · exact absurd h (by decide)

theorem tryLinkCore_none_head {c : Char} (t : List Char) (h2 : c ≠ '[') :
    tryLinkCore (c :: t) = none := by
  rw [tryLinkCore.eq_def]
  split
  next cs heq =>
    injection heq with e1 e2
    exact absurd e1 h2
  next => rfl

theorem tryLink_eq_core {c : Char} (t : List Char) (h1 : c ≠ '!') :
    tryLink (c :: t) = tryLinkCore (c :: t) := by
  rw [tryLink.eq_def]
  split
  next cs heq =>
    injection heq with e1 e2
    exact absurd e1 h1
  next => rfl

theorem tryLink_none_head {c : Char} (t : List Char) (h1 : c ≠ '!') (h2 : c ≠ '[') :
    tryLink (c :: t) = none := by
  rw [tryLink_eq_core t h1]
  exact tryLinkCore_none_head t h2

theorem tryLink_none_bracket_run (a : List Char) (ha : ∀ c ∈ a, (c != ']') = true)
    (w : List Char) :
    tryLink ('[' :: (a ++ ']' :: ']' :: ']' :: w)) = none := by
  rw [tryLink_eq_core _ (by decide)]
  have hdw : (a ++ ']' :: ']' :: ']' :: w).dropWhile (fun d => d != ']')
      = ']' :: ']' :: ']' :: w := dropWhile_append_cons ha (by decide)
  simp only [tryLinkCore, hdw]
  split
  next heq =>
    injection heq with e1 heq
    injection heq with e2 heq
    exact absurd e2 (by decide)
  next => rfl

theorem mem_head_run_ne_rbracket {ds : List Char} (hd : ∀ c ∈ ds, c.isDigit = true) :
    ∀ a ∈ ('[' :: '[' :: 'T' :: 'O' :: 'K' :: 'E' :: 'N' :: '_' :: ds), (a != ']') = true := by
  intro a ha
  simp only [List.mem_cons] at ha
  rcases ha with rfl | rfl | rfl | rfl | rfl | rfl | rfl | rfl | ha
  · decide
  · decide
  · decide
  · decide
  · decide
  · decide
  · decide
  · decide
  · simp only [bne_iff_ne, ne_eq]
    exact isDigit_ne (hd a ha) (by decide)

/-- The link/image pattern never matches starting anywhere inside a
placeholder shape (regardless of what follows it): the `[^\]]*` cannot pass
the closing brackets, so the mandatory `(` is never reached, and no other
character of the shape can start the pattern. -/
theorem tryLink_none_in_shape {ds : List Char} (hd : ∀ c ∈ ds, c.isDigit = true)
    {i : Nat} (hi : i < (shapeStr ds).length) (w : List Char) :
    tryLink ((shapeStr ds).drop i ++ w) = none := by
  have hsub : ∀ a ∈ ds, (a != ']') = true := by
    intro a ha
    simp only [bne_iff_ne, ne_eq]
    exact isDigit_ne (hd a ha) (by decide)
  rcases i with _ | _ | _ | q
  · have he : (shapeStr ds).drop 0 ++ w =
        '[' :: (('[' :: '[' :: 'T' :: 'O' :: 'K' :: 'E' :: 'N' :: '_' :: ds)
          ++ ']' :: ']' :: ']' :: w) := by
      simp [shapeStr]
    rw [he]
    exact tryLink_none_bracket_run _ (mem_head_run_ne_rbracket hd) w
  · have he : (shapeStr ds).drop 1 ++ w =
        '[' :: (('[' :: 'T' :: 'O' :: 'K' :: 'E' :: 'N' :: '_' :: ds)
          ++ ']' :: ']' :: ']' :: w) := by
      simp [shapeStr]
    rw [he]
    refine tryLink_none_bracket_run _ ?_ w
    intro a ha
    exact mem_head_run_ne_rbracket hd a (by simp only [List.mem_cons] at ha ⊢; tauto)
  · have he : (shapeStr ds).drop 2 ++ w =
        '[' :: (('T' :: 'O' :: 'K' :: 'E' :: 'N' :: '_' :: ds)
          ++ ']' :: ']' :: ']' :: w) := by
      simp [shapeStr]
    rw [he]
    refine tryLink_none_bracket_run _ ?_ w
    intro a ha
    exact mem_head_run_ne_rbracket hd a (by simp only [List.mem_cons] at ha ⊢; tauto)
  · have hdrop : (shapeStr ds).drop (q + 3) =
        ('T' :: 'O' :: 'K' :: 'E' :: 'N' :: '_' :: (ds ++ [']', ']', ']'])).drop q := by
      simp [shapeStr]
    rw [shapeStr_length] at hi
    cases hdq : ('T' :: 'O' :: 'K' :: 'E' :: 'N' :: '_' :: (ds ++ [']', ']', ']'])).drop q with
    | nil =>
      have := congrArg List.length hdq
      simp at this
      omega
    | cons c t' =>
      rw [hdrop, hdq]
      have hcm := mem_of_drop_cons hdq
      simp only [List.mem_cons, List.mem_append] at hcm
      have hc1 : c ≠ '!' ∧ c ≠ '[' := by
        rcases hcm with rfl | rfl | rfl | rfl | rfl | rfl | h | h
        · exact ⟨by decide, by decide⟩
        · exact ⟨by decide, by decide⟩
        · exact ⟨by decide, by decide⟩
        · exact ⟨by decide, by decide⟩
        · exact ⟨by decide, by decide⟩
        · exact ⟨by decide, by decide⟩
        · exact ⟨isDigit_ne (hd c h) (by decide), isDigit_ne (hd c h) (by decide)⟩
        · rcases h with rfl | rfl | rfl | h0
          · exact ⟨by decide, by decide⟩
          · exact ⟨by decide, by decide⟩
          · exact ⟨by decide, by decide⟩
          · simp at h0
      exact tryLink_none_head (t' ++ w) hc1.1 hc1.2

theorem tryLinkCore_ends {s m r : List Char} (h : tryLinkCore s = some (m, r)) :
    ∃ m', m = m' ++ [')'] := by
  rw [tryLinkCore.eq_def] at h
  split at h
  case _ cs =>
    split at h
    case _ b1 ds hdw1 =>
      split at h
      case _ b2 r0 hdw2 =>
        split at h
        case _ => exact absurd h (by simp)
        case _ =>
          injection h with h1
          injection h1 with hm hr
          have hb2 : b2 = ')' := by
            have hhead := List.head?_dropWhile_not (fun d => d != ')') ds
            rw [hdw2] at hhead
            simpa using hhead
          subst hm
          refine ⟨'[' :: (cs.takeWhile (fun d => d != ']')
            ++ b1 :: '(' :: ds.takeWhile (fun d => d != ')')), ?_⟩
          simp [hb2]
      case _ => exact absurd h (by simp)
    case _ => exact absurd h (by simp)
  case _ => exact absurd h (by simp)

theorem tryLink_ends {s m r : List Char} (h : tryLink s = some (m, r)) :
    ∃ m', m = m' ++ [')'] := by
  rw [tryLink.eq_def] at h
  split at h
  case _ cs =>
    cases hc : tryLinkCore cs with
    | none => rw [hc] at h; exact absurd h (by simp)
    | some p =>
      obtain ⟨m0, r0⟩ := p
      rw [hc] at h
      simp only [Option.map] at h
      injection h with h1
      injection h1 with hm hr
      subst hm
      obtain ⟨m', hm'⟩ := tryLinkCore_ends hc
      exact ⟨'!' :: m', by simp [hm']⟩
  case _ => exact tryLinkCore_ends h

theorem subRestore_cons_some {stash : List (List Char)} {c : Char} {cs : List Char}
    {n : Nat} {r : List Char} (h : tryPlaceholder (c :: cs) = some (n, r)) :
    subRestore stash (c :: cs) =
      match stash.get? n with
      | some v => (subRestore stash r).map (fun out => v ++ out)
      | none => none := by
  rw [subRestore.eq_def]
  dsimp only
  split
  next n' r' h' =>
    rw [h] at h'
    injection h' with h1
    injection h1 with hn hr
    subst hn; subst hr
    rfl
  next h' =>
    rw [h] at h'
    exact absurd h' (by simp)

theorem subRestore_cons_none {stash : List (List Char)} {c : Char} {cs : List Char}
    (h : tryPlaceholder (c :: cs) = none) :
    subRestore stash (c :: cs) = (subRestore stash cs).map (fun out => c :: out) := by
  rw [subRestore.eq_def]
  dsimp only
  split
  next n' r' h' =>
    rw [h] at h'
    exact absurd h' (by simp)
  next h' => rfl

theorem subStash_cons_some (tm : List Char → Option (List Char × List Char))
    (htm : ∀ s m r, tm s = some (m, r) → r.length < s.length)
    {c : Char} {cs m r : List Char} {st : List (List Char)}
    (h : tm (c :: cs) = some (m, r)) :
    subStash tm htm (c :: cs) st =
      (placeholderOf st.length ++ (subStash tm htm r (st ++ [m])).1,
       (subStash tm htm r (st ++ [m])).2) := by
  rw [subStash.eq_def]
  dsimp only
  split
  next m' r' h' =>
    rw [h] at h'
    injection h' with h1
    injection h1 with hm hr
    subst hm; subst hr
    rfl
  next h' =>
    rw [h] at h'
    exact absurd h' (by simp)

theorem subStash_cons_none (tm : List Char → Option (List Char × List Char))
    (htm : ∀ s m r, tm s = some (m, r) → r.length < s.length)
    {c : Char} {cs : List Char} {st : List (List Char)}
    (h : tm (c :: cs) = none) :
    subStash tm htm (c :: cs) st =
      (c :: (subStash tm htm cs st).1, (subStash tm htm cs st).2) := by
  rw [subStash.eq_def]
  dsimp only
  split
  next m' r' h' =>
    rw [h] at h'
    exact absurd h' (by simp)
  next h' => rfl

theorem subStash_skip (tm : List Char → Option (List Char × List Char))
    (htm : ∀ s m r, tm s = some (m, r) → r.length < s.length) :
    ∀ (a w : List Char) (st : List (List Char)),
      (∀ i, i < a.length → tm (a.drop i ++ w) = none) →
      subStash tm htm (a ++ w) st
        = (a ++ (subStash tm htm w st).1, (subStash tm htm w st).2) := by
  intro a
  induction a with
  | nil => intro w st _; simp
  | cons c a' ih =>
    intro w st h
    have h0 : tm (c :: (a' ++ w)) = none := by
      have := h 0 (by simp)
      simpa using this
    rw [List.cons_append, subStash_cons_none tm htm h0,
      ih w st (fun i hi => by have := h (i + 1) (by simpa using hi); simpa using this)]
    simp

theorem subRestore_skip (stash : List (List Char)) :
    ∀ (a w : List Char),
      (∀ i, i < a.length → tryPlaceholder (a.drop i ++ w) = none) →
      subRestore stash (a ++ w) = (subRestore stash w).map (fun out => a ++ out) := by
  intro a
  induction a with
  | nil =>
    intro w _
    simp only [List.nil_append]
    cases subRestore stash w <;> simp
  | cons c a' ih =>
    intro w h
    have h0 : tryPlaceholder (c :: (a' ++ w)) = none := by
      have := h 0 (by simp)
      simpa using this
    rw [List.cons_append, subRestore_cons_none h0,
      ih w (fun i hi => by have := h (i + 1) (by simpa using hi); simpa using this)]
    cases subRestore stash w <;> simp

/-- One component of the decomposition of a masked text: a literal span of
copied characters, or the placeholder for stash index `n`. -/
inductive Seg
  | lit (cs : List Char)
  | ph (n : Nat)
  deriving Repr, DecidableEq

/-- The masked text a segment list denotes. -/
def flattenPh : List Seg → List Char
  | [] => []
  | Seg.lit cs :: rest => cs ++ flattenPh rest
  | Seg.ph n :: rest => placeholderOf n ++ flattenPh rest

/-- The restored text of a segment list: placeholders are replaced by their
stash entries. -/
def restoredOf (stash : List (List Char)) : List Seg → List Char
  | [] => []
  | Seg.lit cs :: rest => cs ++ restoredOf stash rest
  | Seg.ph n :: rest => (stash.get? n).getD [] ++ restoredOf stash rest

/-- `a` occurs as a contiguous substring of `b`. -/
def SubSeg (a b : List Char) : Prop := ∃ u v, b = u ++ a ++ v

theorem SubSeg.trans {a b c : List Char} (h1 : SubSeg a b) (h2 : SubSeg b c) :
    SubSeg a c := by
  obtain ⟨u1, v1, rfl⟩ := h1
  obtain ⟨u2, v2, rfl⟩ := h2
  exact ⟨u2 ++ u1, v1 ++ v2, by simp⟩

theorem SubSeg_take_drop (cs : List Char) (i L : Nat) :
    SubSeg ((cs.drop i).take L) cs := by
  refine ⟨cs.take i, (cs.drop i).drop L, ?_⟩
  conv_lhs => rw [← List.take_append_drop i cs]
  conv_lhs => rw [← List.take_append_drop L (cs.drop i)]
  simp

/-- Well-formedness of a segment decomposition for restoration over `stash`,
relative to the original text `s`: placeholder indices are within the stash,
literal spans are non-empty substrings of `s`, and a literal span is always
followed by a placeholder or the end (maximal literal runs). -/
inductive SegsOK (stash : List (List Char)) (s : List Char) : List Seg → Prop
  | nil : SegsOK stash s []
  | ph {n : Nat} {rest : List Seg} : n < stash.length → SegsOK stash s rest →
      SegsOK stash s (Seg.ph n :: rest)
  | lit {cs : List Char} {rest : List Seg} : cs ≠ [] → SubSeg cs s →
      (rest = [] ∨ ∃ m rest', rest = Seg.ph m :: rest') →
      SegsOK stash s rest → SegsOK stash s (Seg.lit cs :: rest)

theorem startsShape_flattenPh_ph (m : Nat) (rest : List Seg) :
    StartsShape (flattenPh (Seg.ph m :: rest)) := by
  refine ⟨natDigits m, flattenPh rest, ?_, natDigits_ne_nil m, natDigits_digits m⟩
  simp [flattenPh, placeholderOf]

/-- Inside a well-formed decomposition, no placeholder shape starts at any
position of a literal span: a shape cannot fit inside the literal (the
original has none), and cannot cross into a following placeholder. -/
theorem no_ghost_in_lit {s : List Char} (hs : ¬ HasShape s)
    {cs : List Char} (hsub : SubSeg cs s) {rest : List Seg}
    (hAlt : rest = [] ∨ ∃ m rest', rest = Seg.ph m :: rest') :
    ∀ i, i < cs.length → ¬ StartsShape (cs.drop i ++ flattenPh rest) := by
  intro i hi hss
  obtain ⟨ds, suf, heq, hned, hdd⟩ := hss
  by_cases hlen : (shapeStr ds).length ≤ (cs.drop i).length
  · have htake : (cs.drop i).take (shapeStr ds).length = shapeStr ds := by
      have h1 := congrArg (List.take (shapeStr ds).length) heq
      rw [List.take_append_of_le_length hlen] at h1
      rw [h1, List.take_left]
    refine hs ?_
    have hsubs : SubSeg (shapeStr ds) s := by
      refine SubSeg.trans ?_ hsub
      rw [← htake]
      exact SubSeg_take_drop cs i (shapeStr ds).length
    obtain ⟨u, v, huv⟩ := hsubs
    exact ⟨u, ds, v, huv, hned, hdd⟩
  · push_neg at hlen
    rcases hAlt with rfl | ⟨m, rest', rfl⟩
    · have h1 := congrArg List.length heq
      simp [flattenPh] at h1
      simp only [List.length_drop] at h1 hlen
      omega
    · have hdropeq : flattenPh (Seg.ph m :: rest')
          = (shapeStr ds).drop (cs.drop i).length ++ suf := by
        have h1 := congrArg (List.drop (cs.drop i).length) heq
        rw [List.drop_left] at h1
        rw [List.drop_append_of_le_length (by omega)] at h1
        exact h1
      have hne : (cs.drop i).length ≥ 1 := by
        have : cs.drop i ≠ [] := by
          intro h0
          have := congrArg List.length h0
          simp at this
          omega
        cases h0 : cs.drop i with
        | nil => exact absurd h0 this
        | cons a t => simp [h0]
      refine no_shape_inside_shape hdd (p := (cs.drop i).length) hne hlen suf ?_
      rw [← hdropeq]
      exact startsShape_flattenPh_ph m rest'

/-- Restoring a well-formed decomposition succeeds and replaces exactly the
inserted placeholders: the scan copies literal spans verbatim (no placeholder
shape starts inside them) and rewrites each placeholder to its stash entry. -/
theorem subRestore_segs {stash : List (List Char)} {s : List Char}
    (hs : ¬ HasShape s) :
    ∀ segs, SegsOK stash s segs →
      subRestore stash (flattenPh segs) = some (restoredOf stash segs) := by
  intro segs hok
  induction hok with
  | nil =>
    show subRestore stash [] = some []
    rw [subRestore.eq_def]
  | @ph n rest hn _ ih =>
    show subRestore stash (placeholderOf n ++ flattenPh rest)
      = some ((stash.get? n).getD [] ++ restoredOf stash rest)
    have htp : tryPlaceholder (placeholderOf n ++ flattenPh rest)
        = some (n, flattenPh rest) := by
      unfold placeholderOf
      rw [tryPlaceholder_shape _ (natDigits_ne_nil n) (natDigits_digits n),
        digitsVal_natDigits]
    have hcons : placeholderOf n ++ flattenPh rest
        = '[' :: (('[' :: '[' :: 'T' :: 'O' :: 'K' :: 'E' :: 'N' :: '_'
            :: (natDigits n ++ [']', ']', ']'])) ++ flattenPh rest) := by
      simp [placeholderOf, shapeStr]
    rw [hcons] at htp ⊢
    rw [subRestore_cons_some htp]
    have hget : stash.get? n = some (stash.get ⟨n, hn⟩) := List.get?_eq_get hn
    rw [hget]
    simp only [Option.getD_some]
    rw [ih]
    rfl
  | @lit cs rest hne hsub hAlt _ ih =>
    show subRestore stash (cs ++ flattenPh rest)
      = some (cs ++ restoredOf stash rest)
    have hnog := no_ghost_in_lit hs hsub hAlt
    have hnom : ∀ i, i < cs.length → tryPlaceholder (cs.drop i ++ flattenPh rest) = none := by
      intro i hi
      cases htp : tryPlaceholder (cs.drop i ++ flattenPh rest) with
      | none => rfl
      | some p =>
        exfalso
        refine hnog i hi ?_
        rw [startsShape_iff, htp]
        rfl
    rw [subRestore_skip stash cs (flattenPh rest) hnom, ih]
    rfl

/-- Structure of a masked text `t` against its original `orig` relative to a
stash: `t` is `orig` with some spans replaced by placeholders whose stash
entries hold the replaced spans; literal spans are maximal (always followed
by a placeholder or the end of the text). -/
inductive MaskStr (st : List (List Char)) : List Char → List Char → Prop
  | nil : MaskStr st [] []
  | ph {n : Nat} {orig t' s' : List Char} : st.get? n = some orig →
      MaskStr st t' s' → MaskStr st (placeholderOf n ++ t') (orig ++ s')
  | lit {u t' s' : List Char} : u ≠ [] →
      (t' = [] ∨ ∃ n t'', t' = placeholderOf n ++ t'') →
      MaskStr st t' s' → MaskStr st (u ++ t') (u ++ s')

theorem MaskStr.cons {st : List (List Char)} {t s' : List Char} (c : Char)
    (h : MaskStr st t s') : MaskStr st (c :: t) (c :: s') := by
  cases h with
  | nil => exact MaskStr.lit (u := [c]) (by simp) (Or.inl rfl) MaskStr.nil
  | ph hget hrest =>
    exact MaskStr.lit (u := [c]) (by simp) (Or.inr ⟨_, _, rfl⟩) (MaskStr.ph hget hrest)
  | lit hne hstruct hrest =>
    exact MaskStr.lit (u := c :: _) (by simp) hstruct hrest

theorem subStash_stash_grows (tm : List Char → Option (List Char × List Char))
    (htm : ∀ s m r, tm s = some (m, r) → r.length < s.length) :
    ∀ (u : List Char) (st0 : List (List Char)),
      ∃ ext, (subStash tm htm u st0).2 = st0 ++ ext := by
  suffices H : ∀ (k : Nat) (u : List Char) (st0 : List (List Char)), u.length ≤ k →
      ∃ ext, (subStash tm htm u st0).2 = st0 ++ ext by
    intro u st0
    exact H u.length u st0 le_rfl
  intro k
  induction k with
  | zero =>
    intro u st0 hu
    have : u = [] := by
      cases u with
      | nil => rfl
      | cons a t => simp at hu
    subst this
    exact ⟨[], by rw [subStash.eq_def]; simp⟩
  | succ k ih =>
    intro u st0 hu
    cases u with
    | nil => exact ⟨[], by rw [subStash.eq_def]; simp⟩
    | cons c cs =>
      cases htl : tm (c :: cs) with
      | some p =>
        obtain ⟨m, r⟩ := p
        rw [subStash_cons_some tm htm htl]
        have hr : r.length ≤ k := by
          have h2 := htm _ _ _ htl
          simp only [List.length_cons] at h2 hu
          omega
        obtain ⟨ext, hext⟩ := ih r (st0 ++ [m]) hr
        exact ⟨[m] ++ ext, by rw [hext]; simp⟩
      | none =>
        rw [subStash_cons_none tm htm htl]
        exact ih cs st0 (by simpa using hu)

theorem mat_mem_final (tm : List Char → Option (List Char × List Char))
    (htm : ∀ s m r, tm s = some (m, r) → r.length < s.length)
    (m : List Char) (r : List Char) (st : List (List Char)) :
    m ∈ (subStash tm htm r (st ++ [m])).2 := by
  obtain ⟨ext, hext⟩ := subStash_stash_grows tm htm r (st ++ [m])
  rw [hext]
  simp

theorem SubSeg_drop_of_append {a b c : List Char} (h : SubSeg (a ++ b) c) : SubSeg b c := by
  obtain ⟨u, v, rfl⟩ := h
  exact ⟨u ++ a, v, by simp⟩

theorem SubSeg_cons_tail {a : List Char} {x : Char} {c : List Char}
    (h : SubSeg (x :: a) c) : SubSeg a c :=
  SubSeg_drop_of_append (a := [x]) (by simpa using h)

theorem SubSeg_of_head_part {a b c : List Char} (hp : ∃ tl, b = a ++ tl)
    (h : SubSeg b c) : SubSeg a c := by
  obtain ⟨tl, rfl⟩ := hp
  obtain ⟨u, v, rfl⟩ := h
  exact ⟨u, tl ++ v, by simp⟩

/-- Prepend one copied character to a segment decomposition, merging into a
leading literal run when there is one. -/
def consLitSeg (c : Char) : List Seg → List Seg
  | Seg.lit cs :: rest => Seg.lit (c :: cs) :: rest
  | segs => Seg.lit [c] :: segs

theorem flattenPh_consLitSeg (c : Char) (segs : List Seg) :
    flattenPh (consLitSeg c segs) = c :: flattenPh segs := by
  cases segs with
  | nil => rfl
  | cons h t =>
    cases h with
    | lit cs => rfl
    | ph n => rfl

theorem restoredOf_consLitSeg (stash : List (List Char)) (c : Char) (segs : List Seg) :
    restoredOf stash (consLitSeg c segs) = c :: restoredOf stash segs := by
  cases segs with
  | nil => rfl
  | cons h t =>
    cases h with
    | lit cs => rfl
    | ph n => rfl

theorem MaskStr_lit' {st : List (List Char)} (u : List Char) {t' s' : List Char}
    (hstruct : t' = [] ∨ ∃ n t'', t' = placeholderOf n ++ t'')
    (h : MaskStr st t' s') : MaskStr st (u ++ t') (u ++ s') := by
  cases u with
  | nil => simpa using h
  | cons c u0 => exact MaskStr.lit (by simp) hstruct h

/-- A link match starting at the head of a literal span stays within it when
the following text is empty or placeholder-headed and the matched text is
shape-free: the match cannot swallow a whole placeholder (it would contain a
shape) nor stop strictly inside one (its final `)` is not a shape
character). -/
theorem tryLink_match_within {u t' : List Char}
    (hstruct : t' = [] ∨ ∃ n t'', t' = placeholderOf n ++ t'')
    {mat r : List Char} (h : tryLink (u ++ t') = some (mat, r))
    (hmat : ¬ HasShape mat) :
    u = mat ++ u.drop mat.length ∧ r = u.drop mat.length ++ t' := by
  obtain ⟨hsplit, hmne⟩ := tryLink_split h
  by_cases hle : mat.length ≤ u.length
  · have htake := congrArg (List.take mat.length) hsplit
    rw [List.take_append_of_le_length hle, List.take_left] at htake
    have hdrop := congrArg (List.drop mat.length) hsplit
    rw [List.drop_append_of_le_length hle, List.drop_left] at hdrop
    constructor
    · conv_lhs => rw [← List.take_append_drop mat.length u]
      rw [htake]
    · exact hdrop.symm
  · push_neg at hle
    exfalso
    rcases hstruct with rfl | ⟨n, t'', rfl⟩
    · have := congrArg List.length hsplit
      simp at this
      omega
    · have hul : u.length ≤ mat.length := le_of_lt hle
      have htk := congrArg (List.take u.length) hsplit
      rw [List.take_left, List.take_append_of_le_length hul] at htk
      have hdp := congrArg (List.drop u.length) hsplit
      rw [List.drop_left, List.drop_append_of_le_length hul] at hdp
      have hmat_eq : mat = u ++ mat.drop u.length := by
        conv_lhs => rw [← List.take_append_drop u.length mat]
        rw [← htk]
      have hexlen : (mat.drop u.length).length = mat.length - u.length := by
        simp
      by_cases hL : (placeholderOf n).length ≤ (mat.drop u.length).length
      · have h1 := congrArg (List.take (placeholderOf n).length) hdp
        rw [List.take_left, List.take_append_of_le_length hL] at h1
        have h2 : mat.drop u.length
            = placeholderOf n ++ (mat.drop u.length).drop (placeholderOf n).length := by
          conv_lhs =>
            rw [← List.take_append_drop (placeholderOf n).length (mat.drop u.length)]
          rw [← h1]
        have h3 : mat = u ++ shapeStr (natDigits n)
            ++ (mat.drop u.length).drop (placeholderOf n).length := by
          rw [List.append_assoc]
          conv_lhs => rw [hmat_eq, h2]
          rfl
        exact hmat ⟨u, natDigits n, (mat.drop u.length).drop (placeholderOf n).length,
          h3, natDigits_ne_nil n, natDigits_digits n⟩
      · push_neg at hL
        have hexne : mat.drop u.length ≠ [] := by
          intro h0
          have := congrArg List.length h0
          simp at this
          omega
        have h1 := congrArg (List.take (mat.drop u.length).length) hdp
        rw [List.take_left, List.take_append_of_le_length (le_of_lt hL)] at h1
        obtain ⟨m', hm'⟩ := tryLink_ends h
        have hlast : mat.getLast? = some ')' := by
          rw [hm']
          exact List.getLast?_concat m'
        have hlast2 : (mat.drop u.length).getLast? = some ')' := by
          rw [hmat_eq] at hlast
          rwa [List.getLast?_append_of_ne_nil u hexne] at hlast
        have hmem : ')' ∈ mat.drop u.length :=
          List.mem_of_mem_getLast? (by rw [Option.mem_def]; exact hlast2)
        have hmem2 : ')' ∈ (placeholderOf n).take (mat.drop u.length).length := by
          rw [h1]
          exact hmem
        have hmem3 : ')' ∈ shapeStr (natDigits n) :=
          List.take_subset _ _ hmem2
        exact shapeStr_no_rparen (natDigits_digits n) ')' hmem3 rfl

theorem subStash_nil (tm : List Char → Option (List Char × List Char))
    (htm : ∀ s m r, tm s = some (m, r) → r.length < s.length)
    (st : List (List Char)) : subStash tm htm [] st = ([], st) := by
  rw [subStash.eq_def]

theorem final_get?_of_append {st F : List (List Char)} {m : List Char}
    (hF : ∃ ext, F = (st ++ [m]) ++ ext) : F.get? st.length = some m := by
  obtain ⟨ext, rfl⟩ := hF
  rw [List.get?_append (by simp)]
  exact List.get?_concat_length st m

/-- The masked text produced by one `subStash` pass decomposes against its
input: every emitted placeholder's index points, in the final stash, at the
exact span of the input it replaced, and copied spans are maximal. -/
theorem subStash_maskStr (tm : List Char → Option (List Char × List Char))
    (htm : ∀ s m r, tm s = some (m, r) → r.length < s.length)
    (hsp : ∀ s m r, tm s = some (m, r) → s = m ++ r) :
    ∀ (u : List Char) (st : List (List Char)),
      MaskStr (subStash tm htm u st).2 (subStash tm htm u st).1 u := by
  suffices H : ∀ (k : Nat) (u : List Char) (st : List (List Char)), u.length ≤ k →
      MaskStr (subStash tm htm u st).2 (subStash tm htm u st).1 u by
    intro u st
    exact H u.length u st le_rfl
  intro k
  induction k with
  | zero =>
    intro u st hu
    have hunil : u = [] := by
      cases u with
      | nil => rfl
      | cons a t => simp at hu
    subst hunil
    rw [subStash_nil]
    exact MaskStr.nil
  | succ k ih =>
    intro u st hu
    cases u with
    | nil =>
      rw [subStash_nil]
      exact MaskStr.nil
    | cons c cs =>
      cases htl : tm (c :: cs) with
      | some p =>
        obtain ⟨m, r⟩ := p
        have hr : r.length ≤ k := by
          have h2 := htm _ _ _ htl
          simp only [List.length_cons] at h2 hu
          omega
        have hget : (subStash tm htm r (st ++ [m])).2.get? st.length = some m :=
          final_get?_of_append (subStash_stash_grows tm htm r (st ++ [m]))
        have hres : MaskStr (subStash tm htm r (st ++ [m])).2
            (placeholderOf st.length ++ (subStash tm htm r (st ++ [m])).1)
            (c :: cs) := by
          rw [hsp _ _ _ htl]
          exact MaskStr.ph hget (ih r (st ++ [m]) hr)
        rw [subStash_cons_some tm htm htl]
        exact hres
      | none =>
        rw [subStash_cons_none tm htm htl]
        exact MaskStr.cons c (ih cs st (by simpa using hu))

/-- Well-formedness of a segment decomposition independent of the original
text: placeholder indices are in range, literal spans are non-empty and
maximal. -/
inductive SegsOK0 (stash : List (List Char)) : List Seg → Prop
  | nil : SegsOK0 stash []
  | ph {n : Nat} {rest : List Seg} : n < stash.length → SegsOK0 stash rest →
      SegsOK0 stash (Seg.ph n :: rest)
  | lit {cs : List Char} {rest : List Seg} : cs ≠ [] →
      (rest = [] ∨ ∃ m rest', rest = Seg.ph m :: rest') →
      SegsOK0 stash rest → SegsOK0 stash (Seg.lit cs :: rest)

theorem SegsOK0_consLitSeg {stash : List (List Char)} (c : Char) {segs : List Seg}
    (h : SegsOK0 stash segs) : SegsOK0 stash (consLitSeg c segs) := by
  cases h with
  | nil => exact SegsOK0.lit (by simp) (Or.inl rfl) SegsOK0.nil
  | ph hn hrest => exact SegsOK0.lit (by simp) (Or.inr ⟨_, _, rfl⟩) (SegsOK0.ph hn hrest)
  | lit hne hstruct hrest => exact SegsOK0.lit (by simp) hstruct hrest

theorem SubSeg_take_of_append {a b c : List Char} (h : SubSeg (a ++ b) c) : SubSeg a c := by
  obtain ⟨u, v, rfl⟩ := h
  exact ⟨u, b ++ v, by simp⟩

/-- A decomposition well-formed without reference to an original text is
well-formed against any text containing its restored value. -/
theorem segsOK_of_segsOK0 {stash : List (List Char)} {s : List Char} {segs : List Seg}
    (h0 : SegsOK0 stash segs) (hsub : SubSeg (restoredOf stash segs) s) :
    SegsOK stash s segs := by
  revert hsub
  induction h0 with
  | nil =>
    intro _
    exact SegsOK.nil
  | @ph n rest hn hrest ih =>
    intro hsub
    have heq : restoredOf stash (Seg.ph n :: rest)
        = (stash.get? n).getD [] ++ restoredOf stash rest := rfl
    rw [heq] at hsub
    exact SegsOK.ph hn (ih (SubSeg_drop_of_append hsub))
  | @lit cs rest hne hstruct hrest ih =>
    intro hsub
    have heq : restoredOf stash (Seg.lit cs :: rest)
        = cs ++ restoredOf stash rest := rfl
    rw [heq] at hsub
    exact SegsOK.lit hne (SubSeg_take_of_append hsub) hstruct
      (ih (SubSeg_drop_of_append hsub))

/-- Stage two of `protect_tokens`: scanning a masked text with the link
matcher yields a decomposition of the output whose placeholders point at
final-stash entries and whose restored value is the pre-masking original,
provided every final-stash entry is free of placeholder shapes. -/
theorem linkMask_segs (st1 : List (List Char)) :
    ∀ (k : Nat) (t1 sorig : List Char) (st : List (List Char)),
      t1.length ≤ k →
      MaskStr st1 t1 sorig →
      (∃ p, st = st1 ++ p) →
      (∀ e ∈ (subStash tryLink tryLink_length t1 st).2, ¬ HasShape e) →
      ∃ segs,
        (subStash tryLink tryLink_length t1 st).1 = flattenPh segs ∧
        SegsOK0 (subStash tryLink tryLink_length t1 st).2 segs ∧
        restoredOf (subStash tryLink tryLink_length t1 st).2 segs = sorig := by
  intro k
  induction k with
  | zero =>
    intro t1 sorig st ht hm hpre hsf
    cases hm with
    | nil =>
      refine ⟨[], ?_, SegsOK0.nil, rfl⟩
      rw [subStash_nil]
      rfl
    | ph hget hrest =>
      exfalso
      simp only [List.length_append, placeholderOf, shapeStr_length] at ht
      omega
    | lit hne hstruct hrest =>
      exfalso
      rw [List.length_append] at ht
      have hu0 : _ = 0 := Nat.eq_zero_of_le_zero (le_trans (Nat.le_add_right _ _) ht)
      exact hne (List.length_eq_zero.1 hu0)
  | succ k ih =>
    intro t1 sorig st ht hm hpre hsf
    cases hm with
    | nil =>
      refine ⟨[], ?_, SegsOK0.nil, rfl⟩
      rw [subStash_nil]
      rfl
    | @ph n orig t' s' hget hrest =>
      have hnone : ∀ i, i < (placeholderOf n).length →
          tryLink ((placeholderOf n).drop i ++ t') = none := by
        intro i hi
        exact tryLink_none_in_shape (natDigits_digits n) hi t'
      rw [subStash_skip tryLink tryLink_length (placeholderOf n) t' st hnone] at hsf ⊢
      have ht' : t'.length ≤ k := by
        simp only [List.length_append, placeholderOf, shapeStr_length] at ht
        omega
      obtain ⟨segs', h1, h2, h3⟩ := ih t' s' st ht' hrest hpre hsf
      obtain ⟨hlt, -⟩ := List.get?_eq_some.1 hget
      obtain ⟨p, rfl⟩ := hpre
      obtain ⟨ext, hext⟩ := subStash_stash_grows tryLink tryLink_length t' (st1 ++ p)
      refine ⟨Seg.ph n :: segs', ?_, ?_, ?_⟩
      · show placeholderOf n ++ (subStash tryLink tryLink_length t' (st1 ++ p)).1
          = placeholderOf n ++ flattenPh segs'
        rw [h1]
      · refine SegsOK0.ph ?_ h2
        rw [hext]
        simp only [List.length_append, List.length_cons]
        omega
      · have hget2 : (subStash tryLink tryLink_length t' (st1 ++ p)).2.get? n
            = some orig := by
          rw [hext, List.append_assoc, List.get?_append hlt]
          exact hget
        show ((subStash tryLink tryLink_length t' (st1 ++ p)).2.get? n).getD []
            ++ restoredOf (subStash tryLink tryLink_length t' (st1 ++ p)).2 segs'
          = orig ++ s'
        rw [hget2, h3]
        rfl
    | @lit u t' s' hne hstruct hrest =>
      obtain ⟨c, u0, rfl⟩ : ∃ c u0, u = c :: u0 := by
        cases u with
        | nil => exact absurd rfl hne
        | cons c u0 => exact ⟨c, u0, rfl⟩
      simp only [List.cons_append] at hsf ht ⊢
      cases htl : tryLink (c :: (u0 ++ t')) with
      | none =>
        rw [subStash_cons_none tryLink tryLink_length htl] at hsf ⊢
        have hm' : MaskStr st1 (u0 ++ t') (u0 ++ s') := MaskStr_lit' u0 hstruct hrest
        have hfu : (u0 ++ t').length ≤ k := by
          simp only [List.length_cons] at ht
          omega
        obtain ⟨segs', h1, h2, h3⟩ := ih (u0 ++ t') (u0 ++ s') st hfu hm' hpre hsf
        refine ⟨consLitSeg c segs', ?_, SegsOK0_consLitSeg c h2, ?_⟩
        · rw [flattenPh_consLitSeg, ← h1]
        · rw [restoredOf_consLitSeg, h3]
      | some q =>
        obtain ⟨mat, r⟩ := q
        rw [subStash_cons_some tryLink tryLink_length htl] at hsf ⊢
        have hmatmem : mat ∈ (subStash tryLink tryLink_length r (st ++ [mat])).2 :=
          mat_mem_final tryLink tryLink_length mat r st
        have hmatshape : ¬ HasShape mat := hsf mat hmatmem
        have hw := tryLink_match_within (u := c :: u0) hstruct htl hmatshape
        have hmr : MaskStr st1 r ((c :: u0).drop mat.length ++ s') := by
          rw [hw.2]
          exact MaskStr_lit' _ hstruct hrest
        have hfu : r.length ≤ k := by
          have hlr := tryLink_length _ _ _ htl
          simp only [List.length_cons, List.length_append] at hlr ht
          omega
        obtain ⟨p, rfl⟩ := hpre
        obtain ⟨segs', h1, h2, h3⟩ := ih r ((c :: u0).drop mat.length ++ s')
          ((st1 ++ p) ++ [mat]) hfu hmr ⟨p ++ [mat], by simp⟩ hsf
        obtain ⟨ext, hext⟩ :=
          subStash_stash_grows tryLink tryLink_length r ((st1 ++ p) ++ [mat])
        refine ⟨Seg.ph (st1 ++ p).length :: segs', ?_, ?_, ?_⟩
        · show placeholderOf (st1 ++ p).length
              ++ (subStash tryLink tryLink_length r ((st1 ++ p) ++ [mat])).1
            = placeholderOf (st1 ++ p).length ++ flattenPh segs'
          rw [h1]
        · refine SegsOK0.ph ?_ h2
          rw [hext]
          simp only [List.length_append, List.length_cons]
          omega
        · have hget2 :
              (subStash tryLink tryLink_length r ((st1 ++ p) ++ [mat])).2.get?
                (st1 ++ p).length = some mat :=
            final_get?_of_append ⟨ext, hext⟩
          show ((subStash tryLink tryLink_length r ((st1 ++ p) ++ [mat])).2.get?
                (st1 ++ p).length).getD []
              ++ restoredOf (subStash tryLink tryLink_length r ((st1 ++ p) ++ [mat])).2 segs'
            = c :: (u0 ++ s')
          rw [hget2, h3]
          show mat ++ ((c :: u0).drop mat.length ++ s') = c :: (u0 ++ s')
          rw [← List.append_assoc, ← hw.1]
          rfl

/-- Round trip of the mask/restore pair at the character-list level: when the
input text and every stash entry produced for it are free of placeholder
shapes, restoring the masked text over the returned stash recovers the input
exactly. -/
theorem protect_restore_roundtrip (s : List Char) (hs : ¬ HasShape s)
    (hstash : ∀ e ∈ (protectTokensL s).2, ¬ HasShape e) :
    restoreTokensL (protectTokensL s).1 (protectTokensL s).2 = some s := by
  have hm : MaskStr (subStash tryInline tryInline_length s []).2
      (subStash tryInline tryInline_length s []).1 s :=
    subStash_maskStr tryInline tryInline_length
      (fun s m r h => (tryInline_split h).1) s []
  simp only [protectTokensL] at hstash ⊢
  obtain ⟨segs, h1, h2, h3⟩ :=
    linkMask_segs (subStash tryInline tryInline_length s []).2
      (subStash tryInline tryInline_length s []).1.length
      (subStash tryInline tryInline_length s []).1 s
      (subStash tryInline tryInline_length s []).2 le_rfl hm ⟨[], by simp⟩ hstash
  have hok : SegsOK (subStash tryLink tryLink_length
      (subStash tryInline tryInline_length s []).1
      (subStash tryInline tryInline_length s []).2).2 s segs :=
    segsOK_of_segsOK0 h2 (by rw [h3]; exact ⟨[], [], by simp⟩)
  have hres := subRestore_segs hs segs hok
  rw [← h1, h3] at hres
  exact hres

unseal natDigits subStash subRestore in
/-- C3 counterexample: for the input `[a](` + backtick + `b` + backtick + `)`,
which contains no placeholder-shaped substring, the round trip does not return
the input: stage one stashes the inline-code span and leaves its placeholder
inside the link target, stage two stashes the whole link including that
placeholder, and restore emits the stashed link verbatim without rescanning,
so the inner placeholder survives in the output. -/
theorem protect_restore_not_id :
    hasShapeB "[a](`b`)".toList = false ∧
    restore_tokens (protect_tokens "[a](`b`)").1 (protect_tokens "[a](`b`)").2
      = some "[a]([[[TOKEN_0]]])" ∧
    restore_tokens (protect_tokens "[a](`b`)").1 (protect_tokens "[a](`b`)").2
      ≠ some "[a](`b`)" := by
  refine ⟨by decide, by decide, by decide⟩

/-- C3: amended round trip. If the input contains no placeholder-shaped
substring and, additionally, no stash entry returned by `protect_tokens`
contains a placeholder shape (which rules out nested masking, e.g. an
inline-code span inside a link target), then `restore_tokens` applied to the
masked text and stash returned by `protect_tokens` yields the input
exactly. -/
theorem protect_restore_roundtrip_str (s : String)
    (hs : hasShapeB s.toList = false)
    (hstash : ∀ e ∈ (protect_tokens s).2, hasShapeB e.toList = false) :
    restore_tokens (protect_tokens s).1 (protect_tokens s).2 = some s := by
  have hs' : ¬ HasShape s.toList := by
    intro h
    rw [← hasShapeB_iff, hs] at h
    exact absurd h (by simp)
  have hstash' : ∀ e ∈ (protectTokensL s.toList).2, ¬ HasShape e := by
    intro e he h
    rw [← hasShapeB_iff] at h
    have hmem : String.mk e ∈ (protect_tokens s).2 := by
      simp only [protect_tokens]
      exact List.mem_map_of_mem String.mk he
    have hfalse := hstash (String.mk e) hmem
    rw [toList_mk, h] at hfalse
    exact absurd hfalse (by simp)
  have hr := protect_restore_roundtrip s.toList hs' hstash'
  simp only [protect_tokens, restore_tokens, toList_mk, map_toList_map_mk]
  rw [hr]
  rfl

unseal natDigits subStash subRestore in
theorem protect_restore_roundtrip_str_witness :
    (hasShapeB "x `a` [b](c) y".toList = false ∧
      ∀ e ∈ (protect_tokens "x `a` [b](c) y").2, hasShapeB e.toList = false) ∧
    restore_tokens (protect_tokens "x `a` [b](c) y").1
        (protect_tokens "x `a` [b](c) y").2
      = some "x `a` [b](c) y" :=
  ⟨⟨by decide, by decide⟩,
   protect_restore_roundtrip_str "x `a` [b](c) y" (by decide) (by decide)⟩

/-- Executable in-range check for the placeholder occurrences the restore
scan visits, mirroring the `re.sub` scan of `restore_tokens`. -/
def allPhLt (k : Nat) : List Char → Bool
  | [] => true
  | c :: cs =>
    match h : tryPlaceholder (c :: cs) with
    | some (n, r) => decide (n < k) && allPhLt k r
    | none => allPhLt k cs
termination_by s => s.length
decreasing_by
  · exact tryPlaceholder_length h
  · simp

theorem allPhLt_cons_some {k : Nat} {c : Char} {cs : List Char} {n : Nat} {r : List Char}
    (h : tryPlaceholder (c :: cs) = some (n, r)) :
    allPhLt k (c :: cs) = (decide (n < k) && allPhLt k r) := by
  rw [allPhLt.eq_def]
  dsimp only
  split
  next n' r' h' =>
    rw [h] at h'
    injection h' with h1
    injection h1 with hn hr
    subst hn; subst hr
    rfl
  next h' =>
    rw [h] at h'
    exact absurd h' (by simp)

theorem allPhLt_cons_none {k : Nat} {c : Char} {cs : List Char}
    (h : tryPlaceholder (c :: cs) = none) :
    allPhLt k (c :: cs) = allPhLt k cs := by
  rw [allPhLt.eq_def]
  dsimp only
  split
  next n' r' h' =>
    rw [h] at h'
    exact absurd h' (by simp)
  next h' => rfl

/-- The restore scan succeeds exactly when every placeholder it visits has an
in-range stash index. -/
theorem subRestore_isSome_allPhLt (stash : List (List Char)) :
    ∀ t, (subRestore stash t).isSome = allPhLt stash.length t := by
  suffices H : ∀ (k : Nat) t, t.length ≤ k →
      (subRestore stash t).isSome = allPhLt stash.length t by
    intro t
    exact H t.length t le_rfl
  intro k
  induction k with
  | zero =>
    intro t ht
    have ht0 : t = [] := by
      cases t with
      | nil => rfl
      | cons a b => simp at ht
    subst ht0
    rw [subRestore.eq_def, allPhLt.eq_def]
    rfl
  | succ k ih =>
    intro t ht
    cases t with
    | nil =>
      rw [subRestore.eq_def, allPhLt.eq_def]
      rfl
    | cons c cs =>
      cases htp : tryPlaceholder (c :: cs) with
      | some p =>
        obtain ⟨n, r⟩ := p
        rw [subRestore_cons_some htp, allPhLt_cons_some htp]
        have hr : r.length ≤ k := by
          have := tryPlaceholder_length htp
          simp only [List.length_cons] at this ht
          omega
        cases hget : stash.get? n with
        | some v =>
          have hn : n < stash.length := (List.get?_eq_some.1 hget).1
          rw [← ih r hr]
          simp [hn]
        | none =>
          have hn : ¬ n < stash.length := by
            rw [List.get?_eq_none] at hget
            omega
          simp [hn]
      | none =>
        rw [subRestore_cons_none htp, allPhLt_cons_none htp]
        have hcs : cs.length ≤ k := by
          simp only [List.length_cons] at ht
          omega
        rw [← ih cs hcs]
        cases subRestore stash cs <;> rfl

/-- The scan-based in-range check is equivalent to in-range indices at every
literal placeholder-shaped occurrence in the text. -/
theorem allPhLt_iff_occ (k : Nat) :
    ∀ t, (allPhLt k t = true ↔
      ∀ pre ds suf, t = pre ++ shapeStr ds ++ suf → ds ≠ [] →
        (∀ c ∈ ds, c.isDigit = true) → digitsVal ds < k) := by
  suffices H : ∀ (f : Nat) t, t.length ≤ f →
      (allPhLt k t = true ↔
        ∀ pre ds suf, t = pre ++ shapeStr ds ++ suf → ds ≠ [] →
          (∀ c ∈ ds, c.isDigit = true) → digitsVal ds < k) by
    intro t
    exact H t.length t le_rfl
  intro f
  induction f with
  | zero =>
    intro t ht
    have ht0 : t = [] := by
      cases t with
      | nil => rfl
      | cons a b => simp at ht
    subst ht0
    constructor
    · intro _ pre ds suf heq hne hd
      exfalso
      have := congrArg List.length heq
      simp [shapeStr_length] at this
      omega
    · intro _
      rw [allPhLt.eq_def]
  | succ f ih =>
    intro t ht
    cases t with
    | nil =>
      constructor
      · intro _ pre ds suf heq hne hd
        exfalso
        have := congrArg List.length heq
        simp [shapeStr_length] at this
        omega
      · intro _
        rw [allPhLt.eq_def]
    | cons c cs =>
      cases htp : tryPlaceholder (c :: cs) with
      | some p =>
        obtain ⟨n, r⟩ := p
        obtain ⟨ds0, hteq, hne0, hd0, hval0⟩ := tryPlaceholder_some htp
        rw [allPhLt_cons_some htp]
        have hr : r.length ≤ f := by
          have := tryPlaceholder_length htp
          simp only [List.length_cons] at this ht
          omega
        have ihr := ih r hr
        constructor
        · intro hall pre ds suf heq hne hd
          simp only [Bool.and_eq_true, decide_eq_true_eq] at hall
          cases pre with
          | nil =>
            rw [List.nil_append] at heq
            have h2 : tryPlaceholder (c :: cs) = some (digitsVal ds, suf) := by
              rw [heq]
              exact tryPlaceholder_shape suf hne hd
            rw [htp] at h2
            injection h2 with h3
            injection h3 with hnd hrs
            rw [← hnd]
            exact hall.1
          | cons p0 pre' =>
            have hE : shapeStr ds0 ++ r = (p0 :: pre') ++ (shapeStr ds ++ suf) := by
              rw [← hteq, heq]
              simp
            by_cases hlen : (shapeStr ds0).length ≤ (p0 :: pre').length
            · have hdr := congrArg (List.drop (shapeStr ds0).length) hE
              rw [List.drop_left, List.drop_append_of_le_length hlen] at hdr
              rw [← List.append_assoc] at hdr
              exact ihr.1 hall.2 ((p0 :: pre').drop (shapeStr ds0).length) ds suf
                hdr hne hd
            · push_neg at hlen
              exfalso
              have hdr := congrArg (List.drop (p0 :: pre').length) hE
              rw [List.drop_left, List.drop_append_of_le_length (le_of_lt hlen)] at hdr
              refine no_shape_inside_shape hd0 (p := (p0 :: pre').length)
                (by simp) hlen r ?_
              rw [hdr]
              exact ⟨ds, suf, rfl, hne, hd⟩
        · intro hocc
          simp only [Bool.and_eq_true, decide_eq_true_eq]
          constructor
          · have := hocc [] ds0 r (by simpa using hteq) hne0 hd0
            rw [← hval0]
            exact this
          · refine ihr.2 ?_
            intro pre ds suf heq hne hd
            refine hocc (shapeStr ds0 ++ pre) ds suf ?_ hne hd
            rw [hteq, heq]
            simp
      | none =>
        rw [allPhLt_cons_none htp]
        have hcs : cs.length ≤ f := by
          simp only [List.length_cons] at ht
          omega
        have ihc := ih cs hcs
        constructor
        · intro hall pre ds suf heq hne hd
          cases pre with
          | nil =>
            exfalso
            rw [List.nil_append] at heq
            have h2 : tryPlaceholder (c :: cs) = some (digitsVal ds, suf) := by
              rw [heq]
              exact tryPlaceholder_shape suf hne hd
            rw [htp] at h2
            exact absurd h2 (by simp)
          | cons p0 pre' =>
            have heq' : cs = pre' ++ shapeStr ds ++ suf := by
              have h0 := heq
              simp only [List.cons_append] at h0
              injection h0 with e1 e2
            exact ihc.1 hall pre' ds suf heq' hne hd
        · intro hocc
          refine ihc.2 ?_
          intro pre ds suf heq hne hd
          exact hocc (c :: pre) ds suf (by rw [heq]; simp) hne hd

/-- C10: `restore_tokens` is total exactly under the precondition that every
literal placeholder occurrence `[[[TOKEN_<ds>]]]` in the input text carries an
index below the stash length: with any out-of-range occurrence the scan
reaches it (placeholder shapes cannot overlap) and the stash lookup raises
`IndexError` (modelled as `none`); with all indices in range the error branch
is unreachable and a result is returned. -/
theorem restore_tokens_total (stash : List String) (t : String) :
    (restore_tokens t stash).isSome = true ↔
      ∀ pre ds suf, t.toList = pre ++ shapeStr ds ++ suf → ds ≠ [] →
        (∀ c ∈ ds, c.isDigit = true) → digitsVal ds < stash.length := by
  have h1 : (restore_tokens t stash).isSome
      = (subRestore (stash.map String.toList) t.toList).isSome := by
    simp only [restore_tokens, restoreTokensL]
    cases subRestore (stash.map String.toList) t.toList <;> rfl
  rw [h1, subRestore_isSome_allPhLt, List.length_map]
  exact allPhLt_iff_occ stash.length t.toList
